import Mathlib

/-!
Verification of the brc-rs parallel chunked aggregation engine
(`src/main.rs`) against its natural-language specification.

Shallow embedding conventions:
* bytes are `Nat` (0..255), byte strings are `List Nat`;
* Rust `i64` arithmetic is `Int` (all quantities here stay far below 2^63,
  and the one place the source relies on `u8` wrap-around, `b - b'0'`,
  is modelled with an explicit `% 256`);
* a Rust `panic!` is modelled as `Option.none`;
* the worker's `HashMap` accumulator is modelled as an association list in
  insertion order (iteration order of the map is irrelevant to every claim:
  the report is sorted, and merging is proved key-pointwise);
* `Read::read` is modelled deterministically as "return as many bytes as fit",
  which is how a regular file behaves.
-/

/-- Running statistics per station, from `struct WeatherStationStats`
(`min`, `max`, `sum` are `i64` tenths, `count` is `usize`). -/
structure WeatherStationStats where
  min : Int
  max : Int
  sum : Int
  count : Nat
deriving DecidableEq, Repr

/-- `impl Add<&mut Self> for WeatherStationStats`: field-wise min/max/sum/count
combination (`self` is the worker's value, `rhs` the global entry). -/
def addStats (a b : WeatherStationStats) : WeatherStationStats :=
  { min := Min.min a.min b.min
    max := Max.max a.max b.max
    sum := a.sum + b.sum
    count := a.count + b.count }

/-- The scan loop of `parse_line`: walks the reversed final bytes of the line
(at most 6 of them), carrying the running index, the `semicolon_idx` found so
far, the sign flag, and the accumulated measurement.  `b';' = 59`, `b'-' = 45`,
`b'.' = 46`.  The digit arms translate Rust's wrapping `(b - b'0') as i64`
as `(b + 208) % 256`.  `none` models the `panic!` arm. -/
def parseLoop (len : Nat) : List Nat → Nat → Nat → Bool → Int → Option (Nat × Bool × Int)
  | [], _, semiIdx, neg, m => some (semiIdx, neg, m)
  | b :: rest, idx, semiIdx, neg, m =>
    if b = 59 then some (len - idx - 1, neg, m)
    else if b = 45 then parseLoop len rest (idx + 1) semiIdx true m
    else if b = 46 then parseLoop len rest (idx + 1) semiIdx neg m
    else if idx = 0 then parseLoop len rest (idx + 1) semiIdx neg (m + (((b + 208) % 256 : Nat) : Int))
    else if idx = 2 then parseLoop len rest (idx + 1) semiIdx neg (m + (((b + 208) % 256 : Nat) : Int) * 10)
    else if idx = 3 then parseLoop len rest (idx + 1) semiIdx neg (m + (((b + 208) % 256 : Nat) : Int) * 100)
    else none

/-- `fn parse_line(line: &[u8]) -> (&[u8], i64)`, as a function from the
line's bytes (terminator excluded) to the key slice and the tenths value;
`none` models a `panic!`. -/
def parse_line (line : List Nat) : Option (List Nat × Int) :=
  match parseLoop line.length (line.reverse.take 6) 0 0 false 0 with
  | none => none
  | some (semiIdx, neg, m) => some (line.take semiIdx, if neg then -m else m)

example : parse_line [83, 116, 59, 45, 49, 50, 46, 51] =
    some ([83, 116], -123) := by decide

example : parse_line [107, 59, 48, 46, 54] = some ([107], 6) := by decide

/-- A planned byte range of the input file, from `struct Chunk` (the shared
`outer_map` handle, identical in every chunk, is not part of the plan data). -/
structure Chunk where
  start_point : Nat
  len : Nat
deriving DecidableEq, Repr

/-- Index of the first newline byte, modelling
`buf[..].iter().position(|b| *b == b'\n')`. -/
def findNl : List Nat → Option Nat
  | [] => none
  | b :: rest => if b = 10 then some 0 else (findNl rest).map (· + 1)

/-- Stream position after `f.read_until(b'\n', ..)` starting at `pos`:
just past the next newline, or end of file if none remains, or `pos`
unchanged when `pos` is already at or beyond end of file. -/
def readUntilNl (file : List Nat) (pos : Nat) : Nat :=
  if file.length ≤ pos then pos
  else
    match findNl (file.drop pos) with
    | some i => pos + i + 1
    | none => file.length

/-- The chunking loop of `chunk_le_file`: `n` iterations remaining, cursor at
`cur`; each iteration seeks forward by `sz` from the current position, reads
through the next newline, and emits the byte range from the previous cursor. -/
def chunkGo (file : List Nat) (sz : Nat) : Nat → Nat → List Chunk
  | 0, _ => []
  | n + 1, cur =>
    let e := readUntilNl file (cur + sz)
    ⟨cur, e - cur⟩ :: chunkGo file sz n e

/-- `fn chunk_le_file`: the chunk count is `available_parallelism() * 4`
(the parallelism is a parameter here), the target size is
`file_len / chunk_count + 1`, and the loop runs exactly `chunk_count` times. -/
def chunk_le_file (file : List Nat) (par : Nat) : List Chunk :=
  chunkGo file (file.length / (par * 4) + 1) (par * 4) 0

/-- End position of a chunk. -/
def chunkEnd (c : Chunk) : Nat := c.start_point + c.len

/-- Chunks are contiguous starting at `p`: each starts where the previous
one ends. -/
def contiguousFrom : Nat → List Chunk → Bool
  | _, [] => true
  | p, c :: rest => decide (c.start_point = p) && contiguousFrom (chunkEnd c) rest

/-- End position of the final chunk (`d` for an empty plan). -/
def chunksEndD (d : Nat) (cs : List Chunk) : Nat := (cs.map chunkEnd).getLastD d

/-- Every chunk boundary except the final one lies immediately after a
newline byte (the reading of claim C4's alignment property). -/
def alignedBoundaries (file : List Nat) : List Chunk → Bool
  | [] => true
  | [_] => true
  | c :: rest =>
    decide (file[chunkEnd c - 1]? = some 10) && alignedBoundaries file rest

example : chunk_le_file [10] 1 = [⟨0, 1⟩, ⟨1, 1⟩, ⟨2, 1⟩, ⟨3, 1⟩] := by decide

example : chunk_le_file [] 1 = [⟨0, 1⟩, ⟨1, 1⟩, ⟨2, 1⟩, ⟨3, 1⟩] := by decide

example : chunk_le_file [97, 10, 98, 98, 10, 99, 10] 1 =
    [⟨0, 5⟩, ⟨5, 2⟩, ⟨7, 2⟩, ⟨9, 2⟩] := by decide

/-- The keyed accumulator: station key to running stats.  The source uses a
`HashMap`; it is modelled as an association list in insertion order (the
claims are insensitive to iteration order: merging is key-pointwise and the
report sorts). -/
abbrev AccList : Type := List (List Nat × WeatherStationStats)

/-- First-match lookup by key (the map's `get_mut`). -/
def lookupKey (k : List Nat) : AccList → Option WeatherStationStats
  | [] => none
  | kv :: rest => if kv.1 = k then some kv.2 else lookupKey k rest

/-- The stats created for a fresh key in `aggregate_measurements`:
`{min: m, max: m, sum: m, count: 1}`. -/
def initStats (v : Int) : WeatherStationStats := ⟨v, v, v, 1⟩

/-- One `observe` of `aggregate_measurements`' inner match: insert
`initStats` for a new key, else update min/max/sum/count in place. -/
def observe : AccList → List Nat → Int → AccList
  | [], k, v => [(k, initStats v)]
  | kv :: rest, k, v =>
    if kv.1 = k then
      (kv.1, ⟨Min.min kv.2.min v, Max.max kv.2.max v, kv.2.sum + v, kv.2.count + 1⟩) :: rest
    else kv :: observe rest k v

/-- One entry of `calc`'s merge loop: `match stations.get_mut(&k)` —
update an existing entry with `v + jutska`, else insert. -/
def mergeOne : AccList → List Nat → WeatherStationStats → AccList
  | [], k, v => [(k, v)]
  | kv :: rest, k, v =>
    if kv.1 = k then (kv.1, addStats v kv.2) :: rest
    else kv :: mergeOne rest k v

/-- `calc`'s merge loop: fold a worker's accumulator into the global one. -/
def mergeInto (g p : AccList) : AccList := p.foldl (fun g kv => mergeOne g kv.1 kv.2) g

/-- Folding a record list through `observe` (the abstract content of one
worker's scan). -/
def foldObserve (acc : AccList) (rs : List (List Nat × Int)) : AccList :=
  rs.foldl (fun a r => observe a r.1 r.2) acc

/-- `const CHUNK_SIZE: usize = 500_000;` — the worker's read-buffer size. -/
def AGG_BUF_SIZE : Nat := 500000

/-- A found newline index is inside the scanned window. -/
theorem findNl_lt_length {w : List Nat} {i : Nat} (h : findNl w = some i) :
    i < w.length := by
  induction w generalizing i with
  | nil => simp [findNl] at h
  | cons b rest ih =>
    simp only [findNl] at h
    split at h
    · cases h; simp
    · cases hr : findNl rest with
      | none => rw [hr] at h; simp at h
      | some j =>
        rw [hr] at h
        simp only [Option.map_some'] at h
        cases h
        have := ih hr
        simp only [List.length_cons]
        omega

/-- The scan loop of `aggregate_measurements`.  `w` is the live buffer window
`buf[consumed..bytes_read]`, `r` the unread remainder of the worker's stream.
A found newline parses and observes one line and advances past it; otherwise
the unconsumed window is moved to the front of the buffer and refilled behind
(`kontsa.read` modelled as returning everything that fits); a zero-byte read
exits with the accumulator.  `none` propagates a `parse_line` panic. -/
def aggLoop (acc : AccList) (w r : List Nat) : Option AccList :=
  match hnl : findNl w with
  | some i =>
    match parse_line (w.take i) with
    | none => none
    | some kv => aggLoop (observe acc kv.1 kv.2) (w.drop (i + 1)) r
  | none =>
    let space := AGG_BUF_SIZE - w.length
    if ht : (r.take space).isEmpty then some acc
    else aggLoop acc (w ++ r.take space) (r.drop space)
termination_by (r.length, w.length)
decreasing_by
  · apply Prod.Lex.right
    have := findNl_lt_length hnl
    simp only [List.length_drop]
    omega
  · apply Prod.Lex.left
    have hr : r ≠ [] := by
      intro h; subst h; simp at ht
    have hs : 0 < AGG_BUF_SIZE - w.length := by
      by_contra h
      push_neg at h
      interval_cases h' : (AGG_BUF_SIZE - w.length) <;> simp_all
    simp only [List.length_drop]
    have : 0 < r.length := List.length_pos.mpr hr
    omega

/-- `fn aggregate_measurements(kontsa: impl Read)`: initial buffer fill, then
the scan loop. -/
def aggregate_measurements (stream : List Nat) : Option AccList :=
  aggLoop [] (stream.take AGG_BUF_SIZE) (stream.drop AGG_BUF_SIZE)

/-- UTF-8 continuation byte (`0x80..=0xBF`). -/
def contByte (b : Nat) : Bool := 128 ≤ b && b ≤ 191

/-- Lower bound of the second byte of a multi-byte UTF-8 sequence
(`0xE0` and `0xF0` have restricted second bytes). -/
def sndLo (b0 : Nat) : Nat := if b0 = 224 then 160 else if b0 = 240 then 144 else 128

/-- Upper bound of the second byte of a multi-byte UTF-8 sequence
(`0xED` excludes surrogates, `0xF4` caps at U+10FFFF). -/
def sndHi (b0 : Nat) : Nat := if b0 = 237 then 159 else if b0 = 244 then 143 else 191

/-- Second-byte range check for lead byte `b0`. -/
def sndOk (b0 b1 : Nat) : Bool := sndLo b0 ≤ b1 && b1 ≤ sndHi b0

/-- `String::from_utf8_lossy` at the level of scalar values: decode the byte
sequence, substituting U+FFFD (`65533`) for each maximal-subpart of an
ill-formed subsequence (the substitution behaviour documented for
`from_utf8` / `from_utf8_lossy`: on error, the bytes forming a valid prefix
of a sequence are consumed together; an invalid lead consumes one byte). -/
def utf8DecodeLossy : List Nat → List Nat
  | [] => []
  | b0 :: rest =>
    if b0 < 128 then b0 :: utf8DecodeLossy rest
    else if 194 ≤ b0 && b0 ≤ 223 then
      match h1 : rest with
      | [] => [65533]
      | b1 :: r1 =>
        if contByte b1 then ((b0 - 192) * 64 + (b1 - 128)) :: utf8DecodeLossy r1
        else 65533 :: utf8DecodeLossy rest
    else if 224 ≤ b0 && b0 ≤ 239 then
      match h1 : rest with
      | [] => [65533]
      | b1 :: r1 =>
        if sndOk b0 b1 then
          match h2 : r1 with
          | [] => [65533]
          | b2 :: r2 =>
            if contByte b2 then
              ((b0 - 224) * 4096 + (b1 - 128) * 64 + (b2 - 128)) :: utf8DecodeLossy r2
            else 65533 :: utf8DecodeLossy r1
        else 65533 :: utf8DecodeLossy rest
    else if 240 ≤ b0 && b0 ≤ 244 then
      match h1 : rest with
      | [] => [65533]
      | b1 :: r1 =>
        if sndOk b0 b1 then
          match h2 : r1 with
          | [] => [65533]
          | b2 :: r2 =>
            if contByte b2 then
              match h3 : r2 with
              | [] => [65533]
              | b3 :: r3 =>
                if contByte b3 then
                  ((b0 - 240) * 262144 + (b1 - 128) * 4096 + (b2 - 128) * 64 + (b3 - 128)) ::
                    utf8DecodeLossy r3
                else 65533 :: utf8DecodeLossy r2
            else 65533 :: utf8DecodeLossy r1
        else 65533 :: utf8DecodeLossy rest
    else 65533 :: utf8DecodeLossy rest
termination_by l => l.length
decreasing_by
  all_goals subst_vars
  all_goals simp only [List.length_cons]
  all_goals omega

/-- Whether a byte sequence is well-formed UTF-8 (the success condition of
`std::str::from_utf8`). -/
def utf8Valid : List Nat → Bool
  | [] => true
  | b0 :: rest =>
    if b0 < 128 then utf8Valid rest
    else if 194 ≤ b0 && b0 ≤ 223 then
      match h1 : rest with
      | [] => false
      | b1 :: r1 => if contByte b1 then utf8Valid r1 else false
    else if 224 ≤ b0 && b0 ≤ 239 then
      match h1 : rest with
      | [] => false
      | b1 :: r1 =>
        if sndOk b0 b1 then
          match h2 : r1 with
          | [] => false
          | b2 :: r2 => if contByte b2 then utf8Valid r2 else false
        else false
    else if 240 ≤ b0 && b0 ≤ 244 then
      match h1 : rest with
      | [] => false
      | b1 :: r1 =>
        if sndOk b0 b1 then
          match h2 : r1 with
          | [] => false
          | b2 :: r2 =>
            if contByte b2 then
              match h3 : r2 with
              | [] => false
              | b3 :: r3 => if contByte b3 then utf8Valid r3 else false
            else false
        else false
    else false
termination_by l => l.length
decreasing_by
  all_goals subst_vars
  all_goals simp only [List.length_cons]
  all_goals omega

/-- Standard UTF-8 encoding of one scalar value. -/
def utf8EncodeChar (c : Nat) : List Nat :=
  if c < 128 then [c]
  else if c < 2048 then [192 + c / 64, 128 + c % 64]
  else if c < 65536 then [224 + c / 4096, 128 + c / 64 % 64, 128 + c % 64]
  else [240 + c / 262144, 128 + c / 4096 % 64, 128 + c / 64 % 64, 128 + c % 64]

/-- UTF-8 encoding of a sequence of scalar values (what the rendered report's
key text occupies on the output byte stream). -/
def utf8Encode (cs : List Nat) : List Nat := (cs.map utf8EncodeChar).join

/-- The key text that `format!("{}", String::from_utf8_lossy(station))`
contributes to the report. -/
def lossyString (k : List Nat) : String :=
  String.mk ((utf8DecodeLossy k).map Char.ofNat)

example : lossyString [65] = "A" := by
  simp [lossyString, utf8DecodeLossy]

example : lossyString [195, 164] = "ä" := by
  simp [lossyString, utf8DecodeLossy, contByte]

/-- Byte-wise lexicographic strict order on keys, the order of
`a.0.cmp(&b.0)` on `&[u8]` (a strict prefix is smaller). -/
def keyLt : List Nat → List Nat → Bool
  | _, [] => false
  | [], _ :: _ => true
  | a :: as, b :: bs => if a < b then true else if b < a then false else keyLt as bs

/-- Reflexive closure of `keyLt`. -/
def keyLe (a b : List Nat) : Bool := keyLt a b || decide (a = b)

/-- The sort relation of `res.sort_unstable_by(|a, b| a.0.cmp(&b.0))`:
compare entries by raw key bytes only. -/
def entryLe (x y : List Nat × WeatherStationStats) : Prop := keyLe x.1 y.1 = true

instance : DecidableRel entryLe := fun _ _ => inferInstanceAs (Decidable (_ = true))

/-- The report's sort: order the accumulator entries by raw key bytes.
(`sort_unstable_by` with a total order and, here, pairwise-distinct keys has
a unique possible result, so insertion sort is a faithful model.) -/
def sortAccum (acc : AccList) : AccList := List.insertionSort entryLe acc

/-- Rendering of a tenths-integer `v` via `format!("{:.1}", v as f64 / 10.0)`:
for the in-range magnitudes the source produces (|v| ≤ 999 per key,
|v| well below 2^52 for sums), the double is close enough to v/10 that the
display is the exact decimal with one fractional digit. -/
def fmtTenths (v : Int) : String :=
  (if v < 0 then "-" else "") ++ toString (v.natAbs / 10) ++ "." ++
    (Nat.digitChar (v.natAbs % 10)).toString

example : fmtTenths (-123) = "-12.3" := by decide

example : fmtTenths 30 = "3.0" := by decide

example : fmtTenths (-3) = "-0.3" := by decide

/-- Round-half-to-even of the rational `a / b` to the nearest integer,
modelling what `format!("{:.1}", sum as f64 / 10.0 / count as f64)` shows in
the tenths place (the spec allows round-half-to-even or the host's standard
decimal display rounding; ties are modelled exactly half-even). -/
def roundHalfEvenDiv (a : Int) (b : Nat) : Int :=
  if b = 0 then 0
  else
    let q := a.ediv b
    let r := a.emod b
    if 2 * r < b then q
    else if (b : Int) < 2 * r then q + 1
    else if q % 2 = 0 then q else q + 1

/-- Rendering of the mean field `{:.1}` of `sum as f64 / 10.0 / count`. -/
def fmtMean (sum : Int) (count : Nat) : String :=
  fmtTenths (roundHalfEvenDiv sum count)

/-- One `station=min/mean/max` piece of the report, from
`format!("{}={:.1}/{:.1}/{:.1}", ..)`. -/
def entryString (kv : List Nat × WeatherStationStats) : String :=
  lossyString kv.1 ++ "=" ++ fmtTenths kv.2.min ++ "/" ++
    fmtMean kv.2.sum kv.2.count ++ "/" ++ fmtTenths kv.2.max

/-- The report tail of `calc`: sort the global accumulator by raw key bytes,
render every entry, join with ", " and wrap in braces plus newline. -/
def renderReport (acc : AccList) : String :=
  "\x7b" ++ String.intercalate ", " ((sortAccum acc).map entryString) ++ "\x7d\n"

example : renderReport [] = "\x7b\x7d\n" := by decide

/-- The fan-out/merge part of `calc`: run `aggregate_measurements` on every
chunk's byte range and fold each worker's accumulator into the global map
(`none` if any worker panics).  Merge order is immaterial — proved
key-pointwise below — so the completion-order nondeterminism of the threads
is modelled by list order. -/
def runChunks (chunks : List (List Nat)) : Option AccList :=
  chunks.foldl
    (fun og bytes =>
      match og, aggregate_measurements bytes with
      | some g, some p => some (mergeInto g p)
      | _, _ => none)
    (some [])

/-- `fn calc` after the planning step, as a function of the chunk byte
ranges: aggregate every chunk, merge, sort, render. -/
def calcOutput (chunks : List (List Nat)) : Option String :=
  (runChunks chunks).map renderReport

/-- ASCII digit byte. -/
def isDigitByte (b : Nat) : Prop := 48 ≤ b ∧ b ≤ 57

instance (b : Nat) : Decidable (isDigitByte b) := inferInstanceAs (Decidable (_ ∧ _))

/-- A measurement in the fixed format of section 6:
optional minus sign, optional tens digit, ones digit, dot, fractional digit.
Digits are stored as their ASCII byte values. -/
structure Meas where
  neg : Bool
  tens : Option Nat
  ones : Nat
  frac : Nat

/-- The byte rendering `-?D?D.D` of a measurement. -/
def Meas.bytes (m : Meas) : List Nat :=
  (if m.neg then [45] else []) ++
    (match m.tens with | some t => [t] | none => []) ++ [m.ones, 46, m.frac]

/-- Well-formed measurement: every digit byte is an ASCII digit. -/
def Meas.wfm (m : Meas) : Prop :=
  (match m.tens with | some t => isDigitByte t | none => True) ∧
    isDigitByte m.ones ∧ isDigitByte m.frac

instance (m : Meas) : Decidable (Meas.wfm m) := by
  unfold Meas.wfm
  cases m.tens
  all_goals exact inferInstanceAs (Decidable (_ ∧ _ ∧ _))

/-- The numeric value of a measurement, scaled by ten (tenths-integer). -/
def Meas.value (m : Meas) : Int :=
  let mag : Int := (match m.tens with | some t => ((t : Int) - 48) * 100 | none => 0) +
    ((m.ones : Int) - 48) * 10 + ((m.frac : Int) - 48)
  if m.neg then -mag else mag

/-- A line (terminator excluded) matching the grammar of section 6:
`<key bytes, no ';' or newline><';'><measurement>`, with the key-length bound
of section 6 (reference: up to ~100 bytes). -/
def wfLine (l : List Nat) : Prop :=
  ∃ key m, l = key ++ 59 :: Meas.bytes m ∧ Meas.wfm m ∧
    (∀ b ∈ key, b ≠ 59 ∧ b ≠ 10) ∧ key.length ≤ 100

/-- `parseLoop` step: a `';'` byte ends the scan. -/
theorem parseLoop_semi (len : Nat) (rest : List Nat) (idx s : Nat) (n : Bool) (m : Int) :
    parseLoop len (59 :: rest) idx s n m = some (len - idx - 1, n, m) := by
  simp [parseLoop]

/-- `parseLoop` step: a `'-'` byte sets the sign flag. -/
theorem parseLoop_minus (len : Nat) (rest : List Nat) (idx s : Nat) (n : Bool) (m : Int) :
    parseLoop len (45 :: rest) idx s n m = parseLoop len rest (idx + 1) s true m := by
  simp [parseLoop]

/-- `parseLoop` step: a `'.'` byte is skipped. -/
theorem parseLoop_dot (len : Nat) (rest : List Nat) (idx s : Nat) (n : Bool) (m : Int) :
    parseLoop len (46 :: rest) idx s n m = parseLoop len rest (idx + 1) s n m := by
  simp [parseLoop]

/-- `parseLoop` step: any other byte at reversed index 0 is taken as the
fractional digit. -/
theorem parseLoop_d0 (len : Nat) (b : Nat) (rest : List Nat) (s : Nat) (n : Bool) (m : Int)
    (h1 : b ≠ 59) (h2 : b ≠ 45) (h3 : b ≠ 46) :
    parseLoop len (b :: rest) 0 s n m =
      parseLoop len rest 1 s n (m + (((b + 208) % 256 : Nat) : Int)) := by
  simp [parseLoop, h1, h2, h3]

/-- `parseLoop` step: any other byte at reversed index 2 is taken as the
ones digit. -/
theorem parseLoop_d2 (len : Nat) (b : Nat) (rest : List Nat) (s : Nat) (n : Bool) (m : Int)
    (h1 : b ≠ 59) (h2 : b ≠ 45) (h3 : b ≠ 46) :
    parseLoop len (b :: rest) 2 s n m =
      parseLoop len rest 3 s n (m + (((b + 208) % 256 : Nat) : Int) * 10) := by
  simp [parseLoop, h1, h2, h3]

/-- `parseLoop` step: any other byte at reversed index 3 is taken as the
tens digit. -/
theorem parseLoop_d3 (len : Nat) (b : Nat) (rest : List Nat) (s : Nat) (n : Bool) (m : Int)
    (h1 : b ≠ 59) (h2 : b ≠ 45) (h3 : b ≠ 46) :
    parseLoop len (b :: rest) 3 s n m =
      parseLoop len rest 4 s n (m + (((b + 208) % 256 : Nat) : Int) * 100) := by
  simp [parseLoop, h1, h2, h3]

/-- Reversed 6-byte window of a line with shape `key;D.D`. -/
theorem revWindow_pf (key : List Nat) (o f : Nat) :
    (key ++ 59 :: [o, 46, f]).reverse.take 6 =
      f :: 46 :: o :: 59 :: key.reverse.take 2 := by
  rw [List.reverse_append]
  rfl

/-- Reversed 6-byte window of a line with shape `key;-D.D`. -/
theorem revWindow_nf (key : List Nat) (o f : Nat) :
    (key ++ 59 :: [45, o, 46, f]).reverse.take 6 =
      f :: 46 :: o :: 45 :: 59 :: key.reverse.take 1 := by
  rw [List.reverse_append]
  rfl

/-- Reversed 6-byte window of a line with shape `key;DD.D`. -/
theorem revWindow_pt (key : List Nat) (t o f : Nat) :
    (key ++ 59 :: [t, o, 46, f]).reverse.take 6 =
      f :: 46 :: o :: t :: 59 :: key.reverse.take 1 := by
  rw [List.reverse_append]
  rfl

/-- Reversed 6-byte window of a line with shape `key;-DD.D`. -/
theorem revWindow_nt (key : List Nat) (t o f : Nat) :
    (key ++ 59 :: [45, t, o, 46, f]).reverse.take 6 =
      f :: 46 :: o :: t :: 45 :: 59 :: key.reverse.take 0 := by
  rw [List.reverse_append]
  rfl

/-- `parse_line` on a grammar-conforming line returns the key before the
`';'` and the tenths value of the measurement.  (No hypothesis on the key is
needed: the reversed scan stops at the measurement's `';'` before reaching
any key byte.) -/
theorem parse_line_grammar (key : List Nat) (m : Meas) (hm : Meas.wfm m) :
    parse_line (key ++ 59 :: Meas.bytes m) = some (key, Meas.value m) := by
  obtain ⟨htd, ho, hf⟩ := hm
  obtain ⟨neg, tens, o, f⟩ := m
  simp only [isDigitByte] at ho hf
  have ho1 : o ≠ 59 := by omega
  have ho2 : o ≠ 45 := by omega
  have ho3 : o ≠ 46 := by omega
  have hf1 : f ≠ 59 := by omega
  have hf2 : f ≠ 45 := by omega
  have hf3 : f ≠ 46 := by omega
  cases tens with
  | none =>
    cases neg with
    | false =>
      show parse_line (key ++ 59 :: [o, 46, f]) = _
      have hlen : (key ++ 59 :: [o, 46, f]).length = key.length + 4 := by simp
      rw [parse_line, revWindow_pf, hlen, parseLoop_d0 _ _ _ _ _ _ hf1 hf2 hf3,
        parseLoop_dot, parseLoop_d2 _ _ _ _ _ _ ho1 ho2 ho3, parseLoop_semi]
      norm_num [Meas.value]
      constructor
      · rw [show key.length + 4 - 3 - 1 = key.length by omega]
        exact List.take_left key (59 :: [o, 46, f])
      · omega
    | true =>
      show parse_line (key ++ 59 :: [45, o, 46, f]) = _
      have hlen : (key ++ 59 :: [45, o, 46, f]).length = key.length + 5 := by simp
      rw [parse_line, revWindow_nf, hlen, parseLoop_d0 _ _ _ _ _ _ hf1 hf2 hf3,
        parseLoop_dot, parseLoop_d2 _ _ _ _ _ _ ho1 ho2 ho3, parseLoop_minus, parseLoop_semi]
      norm_num [Meas.value]
      constructor
      · rw [show key.length + 5 - 4 - 1 = key.length by omega]
        exact List.take_left key (59 :: [45, o, 46, f])
      · omega
  | some t =>
    have htt : isDigitByte t := htd
    simp only [isDigitByte] at htt
    have ht1 : t ≠ 59 := by omega
    have ht2 : t ≠ 45 := by omega
    have ht3 : t ≠ 46 := by omega
    cases neg with
    | false =>
      show parse_line (key ++ 59 :: [t, o, 46, f]) = _
      have hlen : (key ++ 59 :: [t, o, 46, f]).length = key.length + 5 := by simp
      rw [parse_line, revWindow_pt, hlen, parseLoop_d0 _ _ _ _ _ _ hf1 hf2 hf3,
        parseLoop_dot, parseLoop_d2 _ _ _ _ _ _ ho1 ho2 ho3,
        parseLoop_d3 _ _ _ _ _ _ ht1 ht2 ht3, parseLoop_semi]
      norm_num [Meas.value]
      constructor
      · rw [show key.length + 5 - 4 - 1 = key.length by omega]
        exact List.take_left key (59 :: [t, o, 46, f])
      · omega
    | true =>
      show parse_line (key ++ 59 :: [45, t, o, 46, f]) = _
      have hlen : (key ++ 59 :: [45, t, o, 46, f]).length = key.length + 6 := by simp
      rw [parse_line, revWindow_nt, hlen, parseLoop_d0 _ _ _ _ _ _ hf1 hf2 hf3,
        parseLoop_dot, parseLoop_d2 _ _ _ _ _ _ ho1 ho2 ho3,
        parseLoop_d3 _ _ _ _ _ _ ht1 ht2 ht3, parseLoop_minus, parseLoop_semi]
      norm_num [Meas.value]
      constructor
      · rw [show key.length + 6 - 5 - 1 = key.length by omega]
        exact List.take_left key (59 :: [45, t, o, 46, f])
      · omega

/-- C2: for every line matching the grammar
`<key bytes, no ';' or newline>;<optional '-'><1-2 ASCII digits>.<1 ASCII digit>`,
`parse_line` returns the key before the final `';'` and the decimal value
after it scaled by 10 as an integer (e.g. `StationName;-12.3` yields
`(StationName, -123)`). -/
theorem claim_C2 (key : List Nat) (m : Meas) (hm : Meas.wfm m) :
    parse_line (key ++ 59 :: Meas.bytes m) = some (key, Meas.value m) :=
  parse_line_grammar key m hm

/-- Witness for C2 at the spec's literal case `"StationName;-12.3"`. -/
theorem claim_C2_witness :
    parse_line ([83, 116, 97, 116, 105, 111, 110, 78, 97, 109, 101] ++
        59 :: Meas.bytes ⟨true, some 49, 50, 51⟩) =
      some ([83, 116, 97, 116, 105, 111, 110, 78, 97, 109, 101], -123) := by
  rw [claim_C2 _ _ (by decide)]
  decide

/-- The scan loop fails (hits the `panic!` arm) exactly when, before any
`';'`, it meets a byte other than `';'`, `'-'`, `'.'` at a running index
other than 0, 2, 3. -/
theorem parseLoop_none_iff (len : Nat) (w : List Nat) :
    ∀ (idx s : Nat) (n : Bool) (m : Int),
      (parseLoop len w idx s n m = none ↔
        ∃ j, j < w.length ∧ ¬(idx + j = 0 ∨ idx + j = 2 ∨ idx + j = 3) ∧
          (w.getD j 0 ≠ 59 ∧ w.getD j 0 ≠ 45 ∧ w.getD j 0 ≠ 46) ∧
          ∀ i, i < j → w.getD i 0 ≠ 59) := by
  induction w with
  | nil =>
    intro idx s n m
    simp [parseLoop]
  | cons b rest ih =>
    intro idx s n m
    by_cases hb59 : b = 59
    · subst hb59
      rw [parseLoop_semi]
      constructor
      · intro h; exact absurd h (by simp)
      · rintro ⟨j, hj, hpos, ⟨hb1, hb2, hb3⟩, hprior⟩
        cases j with
        | zero => simp at hb1
        | succ j' => exact absurd (hprior 0 (Nat.succ_pos j')) (by simp)
    · have shift : (∃ j, j < rest.length ∧ ¬(idx + 1 + j = 0 ∨ idx + 1 + j = 2 ∨ idx + 1 + j = 3) ∧
          (rest.getD j 0 ≠ 59 ∧ rest.getD j 0 ≠ 45 ∧ rest.getD j 0 ≠ 46) ∧
          ∀ i, i < j → rest.getD i 0 ≠ 59) ↔
          (∃ j, 0 < j ∧ j < (b :: rest).length ∧
            ¬(idx + j = 0 ∨ idx + j = 2 ∨ idx + j = 3) ∧
            ((b :: rest).getD j 0 ≠ 59 ∧ (b :: rest).getD j 0 ≠ 45 ∧ (b :: rest).getD j 0 ≠ 46) ∧
            ∀ i, 0 < i → i < j → (b :: rest).getD i 0 ≠ 59) := by
        constructor
        · rintro ⟨j, hj, hpos, hbs, hprior⟩
          refine ⟨j + 1, Nat.succ_pos j, by simpa using hj, by omega, by simpa using hbs, ?_⟩
          intro i hi0 hij
          cases i with
          | zero => omega
          | succ i' => simpa using hprior i' (by omega)
        · rintro ⟨j, hj0, hj, hpos, hbs, hprior⟩
          cases j with
          | zero => omega
          | succ j' =>
            refine ⟨j', by simpa using hj, by omega, by simpa using hbs, ?_⟩
            intro i hij
            simpa using hprior (i + 1) (Nat.succ_pos i) (by omega)
      by_cases hb45 : b = 45
      · subst hb45
        rw [parseLoop_minus, ih (idx + 1) s true m, shift]
        constructor
        · rintro ⟨j, hj0, rest'⟩
          exact ⟨j, rest'.1, rest'.2.1, rest'.2.2.1, fun i hi =>
            (by rcases Nat.eq_zero_or_pos i with h0 | h0
                · subst h0; simp
                · exact rest'.2.2.2 i h0 hi)⟩
        · rintro ⟨j, hj, hpos, hbs, hprior⟩
          have hj0 : 0 < j := by
            rcases Nat.eq_zero_or_pos j with h0 | h0
            · subst h0; simp at hbs
            · exact h0
          exact ⟨j, hj0, hj, hpos, hbs, fun i _ hij => hprior i hij⟩
      · by_cases hb46 : b = 46
        · subst hb46
          rw [parseLoop_dot, ih (idx + 1) s n m, shift]
          constructor
          · rintro ⟨j, hj0, rest'⟩
            exact ⟨j, rest'.1, rest'.2.1, rest'.2.2.1, fun i hi =>
              (by rcases Nat.eq_zero_or_pos i with h0 | h0
                  · subst h0; simp
                  · exact rest'.2.2.2 i h0 hi)⟩
          · rintro ⟨j, hj, hpos, hbs, hprior⟩
            have hj0 : 0 < j := by
              rcases Nat.eq_zero_or_pos j with h0 | h0
              · subst h0; simp at hbs
              · exact h0
            exact ⟨j, hj0, hj, hpos, hbs, fun i _ hij => hprior i hij⟩
        · by_cases hidx : idx = 0 ∨ idx = 2 ∨ idx = 3
          · have hstep : ∃ m' : Int, parseLoop len (b :: rest) idx s n m =
                parseLoop len rest (idx + 1) s n m' := by
              rcases hidx with h | h | h
              · subst h; exact ⟨_, parseLoop_d0 len b rest s n m hb59 hb45 hb46⟩
              · subst h; exact ⟨_, parseLoop_d2 len b rest s n m hb59 hb45 hb46⟩
              · subst h; exact ⟨_, parseLoop_d3 len b rest s n m hb59 hb45 hb46⟩
            obtain ⟨m', hm'⟩ := hstep
            rw [hm', ih (idx + 1) s n m', shift]
            constructor
            · rintro ⟨j, hj0, rest'⟩
              exact ⟨j, rest'.1, rest'.2.1, rest'.2.2.1, fun i hi =>
                (by rcases Nat.eq_zero_or_pos i with h0 | h0
                    · subst h0; simpa using hb59
                    · exact rest'.2.2.2 i h0 hi)⟩
            · rintro ⟨j, hj, hpos, hbs, hprior⟩
              have hj0 : 0 < j := by
                rcases Nat.eq_zero_or_pos j with h0 | h0
                · subst h0; simp at hpos; omega
                · exact h0
              exact ⟨j, hj0, hj, hpos, hbs, fun i _ hij => hprior i hij⟩
          · have hnone : parseLoop len (b :: rest) idx s n m = none := by
              have h0 : idx ≠ 0 := by omega
              have h2 : idx ≠ 2 := by omega
              have h3 : idx ≠ 3 := by omega
              simp [parseLoop, hb59, hb45, hb46, h0, h2, h3]
            rw [hnone]
            constructor
            · intro _
              exact ⟨0, by simp, by simpa using hidx, by simp [hb59, hb45, hb46], by omega⟩
            · intro _; rfl

/-- `parse_line` propagates exactly the scan loop's failure. -/
theorem parse_line_eq_none_iff (l : List Nat) :
    parse_line l = none ↔ parseLoop l.length (l.reverse.take 6) 0 0 false 0 = none := by
  cases h : parseLoop l.length (l.reverse.take 6) 0 0 false 0 with
  | none => simp [parse_line, h]
  | some x =>
    obtain ⟨a, b, c⟩ := x
    simp [parse_line, h]

/-- C6 counterexample: the line `"k;zz.z"` (`[107, 59, 122, 122, 46, 122]`)
carries the non-digit byte `'z'` (122) at all three digit positions of the
scanned window (reversed positions 0, 2, 3), yet `parse_line` does not fail:
it returns the junk value 8214 instead of signalling a fatal parse error. -/
theorem claim_C6_counterexample :
    ¬ isDigitByte 122 ∧
      parse_line [107, 59, 122, 122, 46, 122] = some ([107], 8214) ∧
      parse_line [107, 59, 122, 122, 46, 122] ≠ none := by
  refine ⟨by decide, by decide, by decide⟩

/-- C6 amended: `parse_line` fails fatally if and only if the reversed 6-byte
scan, before meeting any `';'`, meets a byte that is not `';'`, `'-'` or `'.'`
at reversed position 1, 4 or 5.  Bytes at the digit positions (reversed 0, 2,
3) are never checked for digitness: any byte there is accepted and folded
into the value. -/
theorem claim_C6_amended (l : List Nat) :
    parse_line l = none ↔
      ∃ j, j < (l.reverse.take 6).length ∧ (j = 1 ∨ j = 4 ∨ j = 5) ∧
        ((l.reverse.take 6).getD j 0 ≠ 59 ∧ (l.reverse.take 6).getD j 0 ≠ 45 ∧
          (l.reverse.take 6).getD j 0 ≠ 46) ∧
        ∀ i, i < j → (l.reverse.take 6).getD i 0 ≠ 59 := by
  rw [parse_line_eq_none_iff, parseLoop_none_iff]
  have h6 : (l.reverse.take 6).length ≤ 6 := by
    rw [List.length_take]
    exact Nat.min_le_left 6 _
  apply exists_congr
  intro j
  constructor
  · rintro ⟨hj, hpos, hbs, hprior⟩
    exact ⟨hj, by omega, hbs, hprior⟩
  · rintro ⟨hj, hpos, hbs, hprior⟩
    exact ⟨hj, by omega, hbs, hprior⟩

/-- Witness for C6 amended: the line `"k;1.z3"` carries the byte `'z'` (122)
at reversed position 1, which is none of `';'`, `'-'`, `'.'`, so the scan
hits the `panic!` arm there. -/
theorem claim_C6_amended_witness :
    parse_line [107, 59, 49, 46, 122, 51] = none := by
  rw [claim_C6_amended]
  refine ⟨1, by decide, by decide, by decide, ?_⟩
  intro i hi
  interval_cases i
  decide

/-- `findNl` finds a newline byte. -/
theorem findNl_some_mem {l : List Nat} {i : Nat} (h : findNl l = some i) :
    l[i]? = some 10 := by
  induction l generalizing i with
  | nil => simp [findNl] at h
  | cons b rest ih =>
    simp only [findNl] at h
    split at h
    · cases h
      simp
      omega
    · cases hr : findNl rest with
      | none => rw [hr] at h; simp at h
      | some j =>
        rw [hr] at h
        simp only [Option.map_some'] at h
        cases h
        simpa using ih hr

/-- `read_until` never moves backwards. -/
theorem readUntilNl_ge (file : List Nat) (pos : Nat) : pos ≤ readUntilNl file pos := by
  unfold readUntilNl
  split
  · exact Nat.le_refl pos
  · split
    · omega
    · omega

/-- Every stop position of `read_until` is either at/past end of file or
immediately after a newline byte. -/
theorem readUntilNl_aligned (file : List Nat) (pos : Nat) :
    file.length ≤ readUntilNl file pos ∨
      file[readUntilNl file pos - 1]? = some 10 := by
  unfold readUntilNl
  split
  · left; assumption
  · rename_i hlt
    cases hf : findNl (file.drop pos) with
    | none => left; exact Nat.le_refl _
    | some i =>
      right
      have hmem := findNl_some_mem hf
      rw [List.getElem?_drop] at hmem
      simpa using hmem

/-- The chunk loop emits exactly `n` chunks. -/
theorem chunkGo_length (file : List Nat) (sz n cur : Nat) :
    (chunkGo file sz n cur).length = n := by
  induction n generalizing cur with
  | zero => rfl
  | succ n ih => simp [chunkGo, ih]

/-- The chunk loop's chunks are contiguous from the starting cursor. -/
theorem chunkGo_contiguous (file : List Nat) (sz : Nat) :
    ∀ n cur, contiguousFrom cur (chunkGo file sz n cur) = true := by
  intro n
  induction n with
  | zero => intro cur; rfl
  | succ n ih =>
    intro cur
    have hge : cur ≤ readUntilNl file (cur + sz) :=
      Nat.le_trans (Nat.le_add_right cur sz) (readUntilNl_ge file (cur + sz))
    simp only [chunkGo, contiguousFrom, chunkEnd, Bool.and_eq_true, decide_eq_true_eq]
    constructor
    · trivial
    · have : cur + (readUntilNl file (cur + sz) - cur) = readUntilNl file (cur + sz) := by omega
      rw [this]
      exact ih (readUntilNl file (cur + sz))

/-- Every chunk the loop emits has length at least the target size. -/
theorem chunkGo_len_ge (file : List Nat) (sz : Nat) :
    ∀ n cur c, c ∈ chunkGo file sz n cur → sz ≤ c.len := by
  intro n
  induction n with
  | zero => intro cur c h; simp [chunkGo] at h
  | succ n ih =>
    intro cur c h
    simp only [chunkGo, List.mem_cons] at h
    rcases h with h | h
    · subst h
      have := readUntilNl_ge file (cur + sz)
      simp only
      omega
    · exact ih _ c h

/-- Every chunk boundary the loop emits is at/past end of file or just after
a newline. -/
theorem chunkGo_aligned (file : List Nat) (sz : Nat) :
    ∀ n cur c, c ∈ chunkGo file sz n cur →
      file.length ≤ chunkEnd c ∨ file[chunkEnd c - 1]? = some 10 := by
  intro n
  induction n with
  | zero => intro cur c h; simp [chunkGo] at h
  | succ n ih =>
    intro cur c h
    simp only [chunkGo, List.mem_cons] at h
    rcases h with h | h
    · subst h
      have hge : cur ≤ readUntilNl file (cur + sz) :=
        Nat.le_trans (Nat.le_add_right cur sz) (readUntilNl_ge file (cur + sz))
      have hca : chunkEnd ⟨cur, readUntilNl file (cur + sz) - cur⟩ =
          readUntilNl file (cur + sz) := by
        simp only [chunkEnd]
        omega
      rw [hca]
      exact readUntilNl_aligned file (cur + sz)
    · exact ih _ c h

/-- Peeling the head chunk off the final-end computation. -/
theorem chunksEndD_cons (d : Nat) (c : Chunk) (cs : List Chunk) :
    chunksEndD d (c :: cs) = chunksEndD (chunkEnd c) cs := by
  cases cs with
  | nil => rfl
  | cons c' cs' => simp only [chunksEndD, List.map_cons, List.getLastD_cons]

/-- The final chunk's end is at least `n` target sizes past the cursor. -/
theorem chunkGo_end_ge (file : List Nat) (sz : Nat) :
    ∀ n cur, cur + n * sz ≤ chunksEndD cur (chunkGo file sz n cur) := by
  intro n
  induction n with
  | zero => intro cur; simp [chunkGo, chunksEndD]
  | succ n ih =>
    intro cur
    rw [chunkGo, chunksEndD_cons]
    have hca : chunkEnd ⟨cur, readUntilNl file (cur + sz) - cur⟩ =
        readUntilNl file (cur + sz) := by
      have hge : cur ≤ readUntilNl file (cur + sz) :=
        Nat.le_trans (Nat.le_add_right cur sz) (readUntilNl_ge file (cur + sz))
      simp only [chunkEnd]
      omega
    rw [hca]
    have h1 := ih (readUntilNl file (cur + sz))
    have h2 := readUntilNl_ge file (cur + sz)
    have : cur + (n + 1) * sz ≤ readUntilNl file (cur + sz) + n * sz := by
      have : cur + (n + 1) * sz = (cur + sz) + n * sz := by ring
      omega
    omega

/-- `chunk_count * (file_len / chunk_count + 1)` reaches past the file end. -/
theorem chunkCount_mul_size_ge (len cc : Nat) (h : 0 < cc) :
    len ≤ cc * (len / cc + 1) := by
  have h1 : cc * (len / cc) + len % cc = len := Nat.div_add_mod len cc
  have h2 : len % cc < cc := Nat.mod_lt len h
  have h3 : cc * (len / cc + 1) = cc * (len / cc) + cc := by ring
  omega

/-- C4 counterexample: for the one-byte file `"\n"` with desired
parallelism 1 the plan is `[(0,1), (1,1), (2,1), (3,1)]`: the chunks are
contiguous, but they span bytes 0..4 of a 1-byte file rather than exactly
0..1, and the boundaries at 2 and 3 are beyond the file, not after a
newline — the plan does not satisfy the claimed conjunction. -/
theorem claim_C4_counterexample :
    ¬ (contiguousFrom 0 (chunk_le_file [10] 1) = true ∧
        chunksEndD 0 (chunk_le_file [10] 1) = List.length [10] ∧
        alignedBoundaries [10] (chunk_le_file [10] 1) = true) := by
  decide

/-- C4 amended: for every file and parallelism ≥ 1, the planned chunks are
contiguous from offset 0 (hence non-overlapping) and collectively cover the
whole file, but the final end lies at or beyond (in general strictly beyond)
end of file rather than exactly at it; every chunk boundary that falls
inside the file lies immediately after a newline byte, while boundaries at
or beyond end of file need not. -/
theorem claim_C4_amended (file : List Nat) (par : Nat) (h : 1 ≤ par) :
    contiguousFrom 0 (chunk_le_file file par) = true ∧
      file.length ≤ chunksEndD 0 (chunk_le_file file par) ∧
      ∀ c ∈ chunk_le_file file par,
        file.length ≤ chunkEnd c ∨ file[chunkEnd c - 1]? = some 10 := by
  unfold chunk_le_file
  refine ⟨chunkGo_contiguous file _ _ 0, ?_, fun c hc => chunkGo_aligned file _ _ 0 c hc⟩
  have h1 := chunkGo_end_ge file (file.length / (par * 4) + 1) (par * 4) 0
  have h2 : 0 < par * 4 := by omega
  have h3 := chunkCount_mul_size_ge file.length (par * 4) h2
  omega

/-- Witness for C4 amended at the file `"a\n"` with parallelism 1. -/
theorem claim_C4_amended_witness :
    contiguousFrom 0 (chunk_le_file [97, 10] 1) = true ∧
      (List.length [97, 10]) ≤ chunksEndD 0 (chunk_le_file [97, 10] 1) ∧
      ∀ c ∈ chunk_le_file [97, 10] 1,
        (List.length [97, 10]) ≤ chunkEnd c ∨ [97, 10][chunkEnd c - 1]? = some 10 :=
  claim_C4_amended [97, 10] 1 (by decide)

/-- C5 counterexample: for the empty file the planner does not return an
empty chunk list: with parallelism 1 it returns four one-byte chunks, all
lying beyond the (empty) file, and the final chunk ends at 4, not at the
file length 0 — nothing is discarded. -/
theorem claim_C5_counterexample :
    chunk_le_file [] 1 = [⟨0, 1⟩, ⟨1, 1⟩, ⟨2, 1⟩, ⟨3, 1⟩] ∧
      chunk_le_file [] 1 ≠ [] ∧
      chunksEndD 0 (chunk_le_file [] 1) ≠ List.length ([] : List Nat) := by
  decide

/-- C5 amended: the planner never discards a chunk: it returns exactly
`parallelism × 4` chunks for every file, the empty file included; every
chunk has length at least `file_len / chunk_count + 1 ≥ 1` (so none is
empty); the final chunk ends at or beyond file length, and for the empty
file every chunk has length exactly 1.  Chunks may extend past end of file
(a worker there simply reads zero bytes). -/
theorem claim_C5_amended (file : List Nat) (par : Nat) (h : 1 ≤ par) :
    (chunk_le_file file par).length = par * 4 ∧
      (∀ c ∈ chunk_le_file file par, 1 ≤ c.len) ∧
      file.length ≤ chunksEndD 0 (chunk_le_file file par) ∧
      ∀ c ∈ chunk_le_file ([] : List Nat) par, c.len = 1 := by
  refine ⟨chunkGo_length file _ _ 0, ?_, ?_, ?_⟩
  · intro c hc
    have hsz := chunkGo_len_ge file (file.length / (par * 4) + 1) (par * 4) 0 c hc
    exact Nat.le_trans (Nat.succ_le_succ (Nat.zero_le _)) hsz
  · unfold chunk_le_file
    have h1 := chunkGo_end_ge file (file.length / (par * 4) + 1) (par * 4) 0
    have h2 : 0 < par * 4 := by omega
    have h3 := chunkCount_mul_size_ge file.length (par * 4) h2
    omega
  · intro c hc
    have hc' : c ∈ chunkGo ([] : List Nat) 1 (par * 4) 0 := by
      unfold chunk_le_file at hc
      simpa using hc
    have h1 := chunkGo_len_ge ([] : List Nat) 1 (par * 4) 0 c hc'
    have h3 : ∀ n cur, ∀ c ∈ chunkGo ([] : List Nat) 1 n cur, c.len ≤ 1 := by
      intro n
      induction n with
      | zero => intro cur c' h'; simp [chunkGo] at h'
      | succ n ih =>
        intro cur c' h'
        simp only [chunkGo, List.mem_cons] at h'
        rcases h' with h' | h'
        · subst h'
          simp only [readUntilNl, List.length_nil]
          simp
        · exact ih _ c' h'
    have h4 := h3 (par * 4) 0 c hc'
    omega

/-- Witness for C5 amended at the empty file with parallelism 2. -/
theorem claim_C5_amended_witness :
    (chunk_le_file [] 2).length = 2 * 4 ∧
      (∀ c ∈ chunk_le_file [] 2, 1 ≤ c.len) ∧
      (List.length ([] : List Nat)) ≤ chunksEndD 0 (chunk_le_file [] 2) ∧
      ∀ c ∈ chunk_le_file ([] : List Nat) 2, c.len = 1 :=
  claim_C5_amended [] 2 (by decide)

/-- Key-pointwise combination of two optional stats entries (the semantic
content of the merge rule). -/
def combineO : Option WeatherStationStats → Option WeatherStationStats →
    Option WeatherStationStats
  | none, b => b
  | some s, none => some s
  | some s, some t => some (addStats s t)

/-- The merge rule is commutative. -/
theorem addStats_comm (a b : WeatherStationStats) : addStats a b = addStats b a := by
  simp only [addStats, WeatherStationStats.mk.injEq]
  refine ⟨min_comm _ _, max_comm _ _, by omega, by omega⟩

/-- The merge rule is associative. -/
theorem addStats_assoc (a b c : WeatherStationStats) :
    addStats (addStats a b) c = addStats a (addStats b c) := by
  simp only [addStats, WeatherStationStats.mk.injEq]
  refine ⟨min_assoc _ _ _, max_assoc _ _ _, by omega, by omega⟩

theorem combineO_none_right (a : Option WeatherStationStats) : combineO a none = a := by
  cases a <;> rfl

theorem combineO_comm (a b : Option WeatherStationStats) : combineO a b = combineO b a := by
  cases a <;> cases b <;> simp [combineO, addStats_comm]

theorem combineO_assoc (a b c : Option WeatherStationStats) :
    combineO (combineO a b) c = combineO a (combineO b c) := by
  cases a <;> cases b <;> cases c <;> simp [combineO, addStats_assoc]

/-- `observe` updates exactly the observed key, by folding in a fresh
singleton stats. -/
theorem lookupKey_observe (a : AccList) (k' : List Nat) (v : Int) (k : List Nat) :
    lookupKey k (observe a k' v) =
      if k' = k then combineO (lookupKey k a) (some (initStats v)) else lookupKey k a := by
  induction a with
  | nil =>
    by_cases h : k' = k
    · subst h; simp [observe, lookupKey, combineO]
    · simp [observe, lookupKey, h]
  | cons kv rest ih =>
    by_cases h1 : kv.1 = k'
    · by_cases h2 : k' = k
      · subst h2
        simp [observe, lookupKey, h1, combineO, addStats, initStats]
      · have hne : ¬ kv.1 = k := by rw [h1]; exact h2
        simp [observe, lookupKey, h1, h2, hne]
    · by_cases h2 : k' = k
      · subst h2
        simp [observe, lookupKey, h1, ih]
      · by_cases h3 : kv.1 = k
        · have h4 : ¬ k = k' := by rw [← h3]; exact h1
          simp [observe, lookupKey, h1, h2, h3, h4, ih]
        · simp [observe, lookupKey, h1, h2, h3, ih]

/-- `mergeOne` updates exactly the merged key. -/
theorem lookupKey_mergeOne (g : AccList) (k' : List Nat) (v : WeatherStationStats)
    (k : List Nat) :
    lookupKey k (mergeOne g k' v) =
      if k' = k then combineO (lookupKey k g) (some v) else lookupKey k g := by
  induction g with
  | nil =>
    by_cases h : k' = k
    · subst h; simp [mergeOne, lookupKey, combineO]
    · simp [mergeOne, lookupKey, h]
  | cons kv rest ih =>
    by_cases h1 : kv.1 = k'
    · by_cases h2 : k' = k
      · subst h2
        simp [mergeOne, lookupKey, h1, combineO, addStats_comm]
      · have hne : ¬ kv.1 = k := by rw [h1]; exact h2
        simp [mergeOne, lookupKey, h1, h2, hne]
    · by_cases h2 : k' = k
      · subst h2
        simp [mergeOne, lookupKey, h1, ih]
      · by_cases h3 : kv.1 = k
        · have h4 : ¬ k = k' := by rw [← h3]; exact h1
          simp [mergeOne, lookupKey, h1, h2, h3, h4, ih]
        · simp [mergeOne, lookupKey, h1, h2, h3, ih]

/-- Folding a list of stats into an optional entry, key-pointwise. -/
def valsFold (o : Option WeatherStationStats) (l : List WeatherStationStats) :
    Option WeatherStationStats :=
  l.foldl (fun o s => combineO o (some s)) o

theorem valsFold_nil (o : Option WeatherStationStats) : valsFold o [] = o := rfl

theorem valsFold_cons (o : Option WeatherStationStats) (s : WeatherStationStats)
    (l : List WeatherStationStats) :
    valsFold o (s :: l) = valsFold (combineO o (some s)) l := rfl

theorem valsFold_append (o : Option WeatherStationStats)
    (l₁ l₂ : List WeatherStationStats) :
    valsFold o (l₁ ++ l₂) = valsFold (valsFold o l₁) l₂ :=
  List.foldl_append _ _ _ _

/-- Pulling the seed out of a fold. -/
theorem valsFold_out (l : List WeatherStationStats) (o : Option WeatherStationStats) :
    valsFold o l = combineO o (valsFold none l) := by
  induction l generalizing o with
  | nil => simp [valsFold, combineO_none_right]
  | cons s t ih =>
    rw [valsFold_cons, valsFold_cons, ih, ih (combineO none (some s)), ← combineO_assoc]
    simp [combineO]

/-- Key-pointwise folds are invariant under permutation of the stats list. -/
theorem valsFold_perm {l₁ l₂ : List WeatherStationStats} (h : l₁.Perm l₂) :
    ∀ o, valsFold o l₁ = valsFold o l₂ := by
  induction h with
  | nil => intro o; rfl
  | cons x _ ih => intro o; rw [valsFold_cons, valsFold_cons, ih]
  | swap x y t =>
    intro o
    rw [valsFold_cons, valsFold_cons, valsFold_cons, valsFold_cons,
      combineO_assoc, combineO_comm (some y) (some x), ← combineO_assoc]
  | trans _ _ ih₁ ih₂ => intro o; rw [ih₁, ih₂]

/-- The stats of every entry of `p` with key `k`, in order. -/
def keyVals (k : List Nat) (p : AccList) : List WeatherStationStats :=
  (p.filter (fun kv => kv.1 = k)).map Prod.snd

/-- Merging a worker accumulator folds, key-pointwise, exactly the entries
with that key. -/
theorem lookupKey_mergeInto (p : AccList) :
    ∀ (g : AccList) (k : List Nat),
      lookupKey k (mergeInto g p) = valsFold (lookupKey k g) (keyVals k p) := by
  induction p with
  | nil => intro g k; rfl
  | cons kv p' ih =>
    intro g k
    have hstep : mergeInto g (kv :: p') = mergeInto (mergeOne g kv.1 kv.2) p' := rfl
    rw [hstep, ih]
    by_cases h : kv.1 = k
    · rw [show keyVals k (kv :: p') = kv.2 :: keyVals k p' by
        simp [keyVals, List.filter_cons, h]]
      rw [valsFold_cons, lookupKey_mergeOne, if_pos h]
    · rw [show keyVals k (kv :: p') = keyVals k p' by
        simp [keyVals, List.filter_cons, h]]
      rw [lookupKey_mergeOne, if_neg h]

/-- The tenths values of every record with key `k`, as singleton stats. -/
def recVals (k : List Nat) (rs : List (List Nat × Int)) : List WeatherStationStats :=
  (rs.filter (fun r => r.1 = k)).map (fun r => initStats r.2)

/-- Folding records through `observe` folds, key-pointwise, exactly the
singleton stats of the records with that key. -/
theorem lookupKey_foldObserve (rs : List (List Nat × Int)) :
    ∀ (acc : AccList) (k : List Nat),
      lookupKey k (foldObserve acc rs) = valsFold (lookupKey k acc) (recVals k rs) := by
  induction rs with
  | nil => intro acc k; rfl
  | cons r rs' ih =>
    intro acc k
    have hstep : foldObserve acc (r :: rs') = foldObserve (observe acc r.1 r.2) rs' := rfl
    rw [hstep, ih]
    by_cases h : r.1 = k
    · rw [show recVals k (r :: rs') = initStats r.2 :: recVals k rs' by
        simp [recVals, List.filter_cons, h]]
      rw [valsFold_cons, lookupKey_observe, if_pos h]
    · rw [show recVals k (r :: rs') = recVals k rs' by
        simp [recVals, List.filter_cons, h]]
      rw [lookupKey_observe, if_neg h]

/-- The keys of an accumulator, in entry order. -/
def accKeys (a : AccList) : List (List Nat) := a.map Prod.fst

/-- Pairwise-distinct keys (what a map guarantees). -/
def NodupKeys (a : AccList) : Prop := (accKeys a).Nodup

theorem lookupKey_eq_none_iff (k : List Nat) (a : AccList) :
    lookupKey k a = none ↔ k ∉ accKeys a := by
  induction a with
  | nil => simp [lookupKey, accKeys]
  | cons kv rest ih =>
    by_cases h : kv.1 = k
    · subst h
      simp [lookupKey, accKeys]
    · rw [lookupKey, if_neg h, ih]
      simp only [accKeys, List.map_cons, List.mem_cons, not_or]
      constructor
      · intro hk
        exact ⟨fun hh => h hh.symm, hk⟩
      · intro hk
        exact hk.2

theorem lookupKey_some_mem {k : List Nat} {a : AccList} {s : WeatherStationStats}
    (h : lookupKey k a = some s) : (k, s) ∈ a := by
  induction a with
  | nil => simp [lookupKey] at h
  | cons kv rest ih =>
    obtain ⟨k1, s1⟩ := kv
    by_cases h1 : k1 = k
    · rw [lookupKey, if_pos h1] at h
      injection h with h2
      subst h1
      subst h2
      exact List.mem_cons_self _ _
    · rw [lookupKey, if_neg h1] at h
      exact List.mem_cons_of_mem _ (ih h)

theorem lookupKey_eq_some_of_mem {k : List Nat} {a : AccList} {s : WeatherStationStats}
    (hnd : NodupKeys a) (hmem : (k, s) ∈ a) : lookupKey k a = some s := by
  induction a with
  | nil => simp at hmem
  | cons kv rest ih =>
    obtain ⟨k1, s1⟩ := kv
    rcases List.mem_cons.mp hmem with h | h
    · injection h with h1 h2
      subst h1
      subst h2
      rw [lookupKey, if_pos rfl]
    · by_cases h1 : k1 = k
      · exfalso
        subst h1
        have hm : k1 ∈ accKeys rest := by
          simp only [accKeys, List.mem_map]
          exact ⟨(k1, s), h, rfl⟩
        have hnd' := hnd
        simp only [NodupKeys, accKeys, List.map_cons, List.nodup_cons] at hnd'
        exact hnd'.1 (by simpa [accKeys] using hm)
      · rw [lookupKey, if_neg h1]
        exact ih (by simpa [NodupKeys, accKeys] using hnd.of_cons) h

/-- With pairwise-distinct keys, lookup is invariant under permutation of
the entry list (so the model's insertion order is immaterial). -/
theorem lookupKey_perm {a b : AccList} (hperm : List.Perm a b) (hnd : NodupKeys a) :
    ∀ k, lookupKey k a = lookupKey k b := by
  induction hperm with
  | nil => intro k; rfl
  | cons x p ih =>
    intro k
    rw [lookupKey, lookupKey]
    by_cases h : x.1 = k
    · rw [if_pos h, if_pos h]
    · rw [if_neg h, if_neg h]
      exact ih (by simpa [NodupKeys, accKeys] using (List.nodup_cons.mp hnd).2) k
  | swap x y t =>
    intro k
    have hxy : y.1 ≠ x.1 := by
      have h1 := (List.nodup_cons.mp hnd).1
      intro hh
      exact h1 (by rw [hh]; exact List.mem_cons_self _ _)
    rw [lookupKey, lookupKey, lookupKey, lookupKey]
    by_cases h1 : y.1 = k
    · rw [if_pos h1, if_neg (by rw [← h1]; exact fun hh => hxy hh.symm), if_pos h1]
    · by_cases h2 : x.1 = k
      · rw [if_neg h1, if_pos h2, if_pos h2]
      · rw [if_neg h1, if_neg h2, if_neg h2, if_neg h1]
  | trans p1 p2 ih1 ih2 =>
    intro k
    rename_i l1 l2 l3
    have hmid : NodupKeys l2 := by
      unfold NodupKeys accKeys
      exact ((p1.map Prod.fst).nodup_iff).mp hnd
    rw [ih1 hnd k, ih2 hmid k]

/-- A key of `observe a k v` is a key of `a` or the observed key. -/
theorem accKeys_observe_subset {a : AccList} {k : List Nat} {v : Int} {x : List Nat}
    (h : x ∈ accKeys (observe a k v)) : x ∈ accKeys a ∨ x = k := by
  induction a with
  | nil =>
    right
    simpa [observe, accKeys] using h
  | cons kv rest ih =>
    by_cases h1 : kv.1 = k
    · rw [observe, if_pos h1] at h
      simp only [accKeys, List.map_cons, List.mem_cons] at h
      rcases h with h | h
      · left; simp [accKeys, h]
      · left; simp [accKeys]; right; simpa [accKeys] using h
    · rw [observe, if_neg h1] at h
      simp only [accKeys, List.map_cons, List.mem_cons] at h
      rcases h with h | h
      · left; simp [accKeys, h]
      · rcases ih (by simpa [accKeys] using h) with h' | h'
        · left; simp [accKeys]; right; simpa [accKeys] using h'
        · right; exact h'

/-- `observe` preserves key distinctness. -/
theorem nodupKeys_observe {a : AccList} (hnd : NodupKeys a) (k : List Nat) (v : Int) :
    NodupKeys (observe a k v) := by
  induction a with
  | nil => simp [observe, NodupKeys, accKeys]
  | cons kv rest ih =>
    have hnd' : NodupKeys rest := by
      simpa [NodupKeys, accKeys] using (List.nodup_cons.mp hnd).2
    have hhead : kv.1 ∉ accKeys rest := by
      simpa [NodupKeys, accKeys] using (List.nodup_cons.mp hnd).1
    by_cases h1 : kv.1 = k
    · rw [observe, if_pos h1]
      simpa [NodupKeys, accKeys] using hnd
    · rw [observe, if_neg h1]
      simp only [NodupKeys, accKeys, List.map_cons, List.nodup_cons]
      constructor
      · intro hmem
        rcases accKeys_observe_subset (by simpa [accKeys] using hmem) with h' | h'
        · exact hhead h'
        · exact h1 h'
      · simpa [NodupKeys, accKeys] using ih hnd'

/-- A key of `mergeOne g k v` is a key of `g` or the merged key. -/
theorem accKeys_mergeOne_subset {g : AccList} {k : List Nat} {v : WeatherStationStats}
    {x : List Nat} (h : x ∈ accKeys (mergeOne g k v)) : x ∈ accKeys g ∨ x = k := by
  induction g with
  | nil =>
    simp only [mergeOne, accKeys, List.map_cons, List.map_nil, List.mem_singleton] at h
    right
    exact h
  | cons kv rest ih =>
    by_cases h1 : kv.1 = k
    · rw [mergeOne, if_pos h1] at h
      simp only [accKeys, List.map_cons, List.mem_cons] at h
      rcases h with h | h
      · left; simp [accKeys, h]
      · left; simp [accKeys]; right; simpa [accKeys] using h
    · rw [mergeOne, if_neg h1] at h
      simp only [accKeys, List.map_cons, List.mem_cons] at h
      rcases h with h | h
      · left; simp [accKeys, h]
      · rcases ih (by simpa [accKeys] using h) with h' | h'
        · left; simp [accKeys]; right; simpa [accKeys] using h'
        · right; exact h'

/-- `mergeOne` preserves key distinctness. -/
theorem nodupKeys_mergeOne {g : AccList} (hnd : NodupKeys g) (k : List Nat)
    (v : WeatherStationStats) : NodupKeys (mergeOne g k v) := by
  induction g with
  | nil => simp [mergeOne, NodupKeys, accKeys]
  | cons kv rest ih =>
    have hnd' : NodupKeys rest := by
      simpa [NodupKeys, accKeys] using (List.nodup_cons.mp hnd).2
    have hhead : kv.1 ∉ accKeys rest := by
      simpa [NodupKeys, accKeys] using (List.nodup_cons.mp hnd).1
    by_cases h1 : kv.1 = k
    · rw [mergeOne, if_pos h1]
      simpa [NodupKeys, accKeys] using hnd
    · rw [mergeOne, if_neg h1]
      simp only [NodupKeys, accKeys, List.map_cons, List.nodup_cons]
      constructor
      · intro hmem
        rcases accKeys_mergeOne_subset (by simpa [accKeys] using hmem) with h' | h'
        · exact hhead h'
        · exact h1 h'
      · simpa [NodupKeys, accKeys] using ih hnd'

/-- The merge loop preserves key distinctness of the global accumulator. -/
theorem nodupKeys_mergeInto (p : AccList) :
    ∀ g : AccList, NodupKeys g → NodupKeys (mergeInto g p) := by
  induction p with
  | nil => intro g h; exact h
  | cons kv p' ih =>
    intro g h
    exact ih (mergeOne g kv.1 kv.2) (nodupKeys_mergeOne h kv.1 kv.2)

/-- Folding records through `observe` preserves key distinctness. -/
theorem nodupKeys_foldObserve (rs : List (List Nat × Int)) :
    ∀ acc : AccList, NodupKeys acc → NodupKeys (foldObserve acc rs) := by
  induction rs with
  | nil => intro acc h; exact h
  | cons r rs' ih =>
    intro acc h
    exact ih (observe acc r.1 r.2) (nodupKeys_observe h r.1 r.2)

theorem keyLt_irrefl (a : List Nat) : keyLt a a = false := by
  induction a with
  | nil => rfl
  | cons x t ih => simp [keyLt, ih]

theorem keyLt_trans : ∀ {a b c : List Nat},
    keyLt a b = true → keyLt b c = true → keyLt a c = true := by
  intro a
  induction a with
  | nil =>
    intro b c hab hbc
    cases b with
    | nil => exact hbc
    | cons y bs =>
      cases c with
      | nil => simp [keyLt] at hbc
      | cons z cs => rfl
  | cons x as ih =>
    intro b c hab hbc
    cases b with
    | nil => simp [keyLt] at hab
    | cons y bs =>
      cases c with
      | nil => simp [keyLt] at hbc
      | cons z cs =>
        simp only [keyLt] at hab hbc ⊢
        split at hab
        · rename_i hxy
          split at hbc
          · rename_i hyz
            rw [if_pos (by omega)]
          · split at hbc
            · simp at hbc
            · rename_i hyz hzy
              have : y = z := by omega
              subst this
              rw [if_pos hxy]
        · split at hab
          · simp at hab
          · rename_i hxy hyx
            have hxy' : x = y := by omega
            subst hxy'
            split at hbc
            · rename_i hyz
              rw [if_pos hyz]
            · split at hbc
              · simp at hbc
              · rename_i hyz hzy
                have : x = z := by omega
                subst this
                rw [if_neg (by omega), if_neg (by omega)]
                exact ih hab hbc

theorem keyLt_trichot : ∀ (a b : List Nat), keyLt a b = true ∨ a = b ∨ keyLt b a = true := by
  intro a
  induction a with
  | nil =>
    intro b
    cases b with
    | nil => right; left; rfl
    | cons y bs => left; rfl
  | cons x as ih =>
    intro b
    cases b with
    | nil => right; right; rfl
    | cons y bs =>
      by_cases hxy : x < y
      · left; simp [keyLt, hxy]
      · by_cases hyx : y < x
        · right; right; simp [keyLt, hyx]
        · have : x = y := by omega
          subst this
          rcases ih bs with h | h | h
          · left; simp [keyLt, h]
          · right; left; rw [h]
          · right; right; simp [keyLt, h]

theorem keyLt_asymm {a b : List Nat} (h : keyLt a b = true) : keyLt b a = false := by
  by_contra hc
  have h2 : keyLt b a = true := by
    cases hh : keyLt b a
    · exact absurd hh hc
    · rfl
  have := keyLt_trans h h2
  rw [keyLt_irrefl] at this
  exact absurd this (by simp)

instance : IsTotal (List Nat × WeatherStationStats) entryLe := by
  constructor
  intro a b
  unfold entryLe keyLe
  rcases keyLt_trichot a.1 b.1 with h | h | h
  · left; simp [h]
  · left; simp [h]
  · right; simp [h]

instance : IsTrans (List Nat × WeatherStationStats) entryLe := by
  constructor
  intro a b c hab hbc
  unfold entryLe keyLe at *
  simp only [Bool.or_eq_true, decide_eq_true_eq] at hab hbc ⊢
  rcases hab with hab | hab
  · rcases hbc with hbc | hbc
    · left; exact keyLt_trans hab hbc
    · left; rw [← hbc]; exact hab
  · rcases hbc with hbc | hbc
    · left; rw [hab]; exact hbc
    · right; rw [hab, hbc]

/-- The report's sort is a permutation of the accumulator. -/
theorem sortAccum_perm (a : AccList) : List.Perm (sortAccum a) a :=
  List.perm_insertionSort entryLe a

/-- The report's sort is sorted by raw-key-byte order. -/
theorem sortAccum_sorted (a : AccList) : List.Pairwise entryLe (sortAccum a) :=
  List.sorted_insertionSort entryLe a

/-- Sorted by `entryLe` plus pairwise-distinct keys gives strictly
increasing keys. -/
theorem pairwise_strict_of_sorted_nodup {l : AccList}
    (hs : List.Pairwise entryLe l) (hnd : NodupKeys l) :
    List.Pairwise (fun x y => keyLt x.1 y.1 = true) l := by
  induction l with
  | nil => exact List.Pairwise.nil
  | cons a t ih =>
    rw [List.pairwise_cons] at hs ⊢
    have hnd' : NodupKeys t := by
      simpa [NodupKeys, accKeys] using (List.nodup_cons.mp hnd).2
    have hhead : a.1 ∉ accKeys t := by
      simpa [NodupKeys, accKeys] using (List.nodup_cons.mp hnd).1
    refine ⟨?_, ih hs.2 hnd'⟩
    intro y hy
    have hne : a.1 ≠ y.1 := by
      intro hh
      exact hhead (by rw [hh]; simp [accKeys]; exact ⟨y.2, by simpa using hy⟩)
    have hle := hs.1 y hy
    unfold entryLe keyLe at hle
    simp only [Bool.or_eq_true, decide_eq_true_eq] at hle
    rcases hle with h | h
    · exact h
    · exact absurd h hne

/-- Two strictly key-sorted association lists with identical lookups are
equal. -/
theorem sortedUnique : ∀ (l₁ l₂ : AccList),
    List.Pairwise (fun x y => keyLt x.1 y.1 = true) l₁ →
    List.Pairwise (fun x y => keyLt x.1 y.1 = true) l₂ →
    (∀ k, lookupKey k l₁ = lookupKey k l₂) → l₁ = l₂ := by
  intro l₁
  induction l₁ with
  | nil =>
    intro l₂ _ _ hl
    cases l₂ with
    | nil => rfl
    | cons b t₂ =>
      exfalso
      have := hl b.1
      rw [lookupKey, lookupKey, if_pos rfl] at this
      exact absurd this (by simp)
  | cons a t₁ ih =>
    intro l₂ hp₁ hp₂ hl
    cases l₂ with
    | nil =>
      exfalso
      have := hl a.1
      rw [lookupKey, lookupKey, if_pos rfl] at this
      exact absurd this (by simp)
    | cons b t₂ =>
      have hstrict₁ := List.pairwise_cons.mp hp₁
      have hstrict₂ := List.pairwise_cons.mp hp₂
      have hanotin : a.1 ∉ accKeys t₁ := by
        intro hmem
        simp only [accKeys, List.mem_map] at hmem
        obtain ⟨y, hy, hyk⟩ := hmem
        have := hstrict₁.1 y hy
        rw [hyk] at this
        rw [keyLt_irrefl] at this
        exact absurd this (by simp)
      have hbnotin : b.1 ∉ accKeys t₂ := by
        intro hmem
        simp only [accKeys, List.mem_map] at hmem
        obtain ⟨y, hy, hyk⟩ := hmem
        have := hstrict₂.1 y hy
        rw [hyk] at this
        rw [keyLt_irrefl] at this
        exact absurd this (by simp)
      have hab : a.1 = b.1 := by
        by_contra hne
        have h1 : lookupKey a.1 (b :: t₂) = some a.2 := by
          rw [← hl a.1, lookupKey, if_pos rfl]
        rw [lookupKey, if_neg (fun hh => hne hh.symm)] at h1
        have hmem1 := lookupKey_some_mem h1
        have hlt1 := hstrict₂.1 _ hmem1
        have h2 : lookupKey b.1 (a :: t₁) = some b.2 := by
          rw [hl b.1, lookupKey, if_pos rfl]
        rw [lookupKey, if_neg hne] at h2
        have hmem2 := lookupKey_some_mem h2
        have hlt2 := hstrict₁.1 _ hmem2
        have := keyLt_asymm hlt1
        rw [this] at hlt2
        exact absurd hlt2 (by simp)
      have hs : a.2 = b.2 := by
        have h1 := hl a.1
        rw [lookupKey, if_pos rfl, lookupKey, if_pos hab.symm] at h1
        injection h1
      have htails : ∀ k, lookupKey k t₁ = lookupKey k t₂ := by
        intro k
        by_cases hk : k = a.1
        · have h1 : lookupKey k t₁ = none :=
            (lookupKey_eq_none_iff k t₁).mpr (by rw [hk]; exact hanotin)
          have h2 : lookupKey k t₂ = none :=
            (lookupKey_eq_none_iff k t₂).mpr (by rw [hk, hab]; exact hbnotin)
          rw [h1, h2]
        · have := hl k
          rw [lookupKey, if_neg (fun hh => hk hh.symm), lookupKey,
            if_neg (by rw [← hab]; exact fun hh => hk hh.symm)] at this
          exact this
      have hteq := ih t₂ hstrict₁.2 hstrict₂.2 htails
      rw [hteq]
      congr 1
      exact Prod.ext hab hs

/-- Accumulators that agree on every key render to the same report. -/
theorem renderReport_eq_of_lookup {a b : AccList} (ha : NodupKeys a) (hb : NodupKeys b)
    (h : ∀ k, lookupKey k a = lookupKey k b) : renderReport a = renderReport b := by
  have hsa : NodupKeys (sortAccum a) := by
    unfold NodupKeys accKeys
    exact (((sortAccum_perm a).map Prod.fst).nodup_iff).mpr ha
  have hsb : NodupKeys (sortAccum b) := by
    unfold NodupKeys accKeys
    exact (((sortAccum_perm b).map Prod.fst).nodup_iff).mpr hb
  have heq : sortAccum a = sortAccum b := by
    apply sortedUnique
    · exact pairwise_strict_of_sorted_nodup (sortAccum_sorted a) hsa
    · exact pairwise_strict_of_sorted_nodup (sortAccum_sorted b) hsb
    · intro k
      rw [lookupKey_perm (sortAccum_perm a) hsa k, h k,
        ← lookupKey_perm (sortAccum_perm b) hsb k]
  unfold renderReport
  rw [heq]

/-- Keys absent from an accumulator contribute no stats. -/
theorem keyVals_eq_nil {k : List Nat} {p : AccList} (h : k ∉ accKeys p) :
    keyVals k p = [] := by
  induction p with
  | nil => rfl
  | cons kv rest ih =>
    have h1 : ¬ kv.1 = k := by
      intro hh
      exact h (by simp [accKeys, hh])
    have h2 : k ∉ accKeys rest := by
      intro hh
      exact h (by simp [accKeys] at hh ⊢; right; exact hh)
    simp [keyVals, List.filter_cons, h1]
    simpa [keyVals] using ih h2

/-- For a map-shaped (distinct-key) accumulator, folding its per-key entries
is combining with its lookup. -/
theorem valsFold_keyVals_nodup {p : AccList} (hnd : NodupKeys p) :
    ∀ (o : Option WeatherStationStats) (k : List Nat),
      valsFold o (keyVals k p) = combineO o (lookupKey k p) := by
  induction p with
  | nil =>
    intro o k
    rw [show keyVals k [] = [] from rfl, valsFold_nil, show lookupKey k [] = none from rfl,
      combineO_none_right]
  | cons kv rest ih =>
    intro o k
    have hnd' : NodupKeys rest := by
      simpa [NodupKeys, accKeys] using (List.nodup_cons.mp hnd).2
    have hhead : kv.1 ∉ accKeys rest := by
      simpa [NodupKeys, accKeys] using (List.nodup_cons.mp hnd).1
    by_cases h : kv.1 = k
    · have hrest : keyVals k rest = [] := keyVals_eq_nil (by rw [← h]; exact hhead)
      rw [show keyVals k (kv :: rest) = kv.2 :: keyVals k rest by
          simp [keyVals, List.filter_cons, h],
        hrest, valsFold_cons, valsFold_nil, lookupKey, if_pos h]
    · rw [show keyVals k (kv :: rest) = keyVals k rest by
          simp [keyVals, List.filter_cons, h],
        ih hnd', lookupKey, if_neg h]

/-- `recVals` distributes over append. -/
theorem recVals_append (k : List Nat) (rs₁ rs₂ : List (List Nat × Int)) :
    recVals k (rs₁ ++ rs₂) = recVals k rs₁ ++ recVals k rs₂ := by
  simp [recVals, List.filter_append]

/-- `recVals` respects permutation of the records. -/
theorem recVals_perm {rs₁ rs₂ : List (List Nat × Int)} (h : rs₁.Perm rs₂) (k : List Nat) :
    (recVals k rs₁).Perm (recVals k rs₂) :=
  (h.filter _).map _

/-- `recVals` over a flattened group list. -/
theorem recVals_join (k : List Nat) :
    ∀ gs : List (List (List Nat × Int)),
      recVals k gs.join = (gs.map (recVals k)).join := by
  intro gs
  induction gs with
  | nil => rfl
  | cons g gs' ih => simp [recVals_append, ih]

/-- A worker accumulator built from empty has key-distinct entries. -/
theorem nodupKeys_worker (rs : List (List Nat × Int)) : NodupKeys (foldObserve [] rs) :=
  nodupKeys_foldObserve rs [] (by simp [NodupKeys, accKeys])

/-- Lookup in a chain of worker merges: every group's records fold in,
key-pointwise, in order. -/
theorem lookupKey_mergeAll (groups : List (List (List Nat × Int))) :
    ∀ (g : AccList) (k : List Nat),
      lookupKey k (groups.foldl (fun g grp => mergeInto g (foldObserve [] grp)) g) =
        valsFold (lookupKey k g) ((groups.map (recVals k)).join) := by
  induction groups with
  | nil => intro g k; rfl
  | cons grp gs ih =>
    intro g k
    have hstep : (grp :: gs).foldl (fun g grp => mergeInto g (foldObserve [] grp)) g =
        gs.foldl (fun g grp => mergeInto g (foldObserve [] grp))
          (mergeInto g (foldObserve [] grp)) := rfl
    rw [hstep, ih]
    simp only [List.map_cons, List.join_cons]
    rw [valsFold_append]
    congr 1
    rw [lookupKey_mergeInto, valsFold_keyVals_nodup (nodupKeys_worker grp),
      lookupKey_foldObserve, show lookupKey k ([] : AccList) = none from rfl,
      ← valsFold_out]

/-- C3: the per-key merge rule is commutative and associative; merging a
worker accumulator into the global one combines lookups key-pointwise; and
folding any partition of a record multiset group-by-group and merging gives,
for every key, the same stats as folding all records into one accumulator
directly. -/
theorem claim_C3 :
    (∀ a b, addStats a b = addStats b a) ∧
    (∀ a b c, addStats (addStats a b) c = addStats a (addStats b c)) ∧
    (∀ (g p : AccList) (k : List Nat), NodupKeys p →
      lookupKey k (mergeInto g p) = combineO (lookupKey k g) (lookupKey k p)) ∧
    (∀ (groups : List (List (List Nat × Int))) (rs : List (List Nat × Int)),
      (groups.join).Perm rs →
      ∀ k, lookupKey k
          (groups.foldl (fun g grp => mergeInto g (foldObserve [] grp)) []) =
        lookupKey k (foldObserve [] rs)) := by
  refine ⟨addStats_comm, addStats_assoc, ?_, ?_⟩
  · intro g p k hnd
    rw [lookupKey_mergeInto, valsFold_keyVals_nodup hnd]
  · intro groups rs hperm k
    rw [lookupKey_mergeAll, lookupKey_foldObserve,
      show lookupKey k ([] : AccList) = none from rfl, ← recVals_join,
      valsFold_perm (recVals_perm hperm k)]

/-- Witness for C3: two groups folded separately and merged agree, on key
`"A"`, with the direct fold of a reordering of all three records. -/
theorem claim_C3_witness :
    lookupKey [65]
        ([[([65], 10), ([66], 5)], [([65], 7)]].foldl
          (fun g grp => mergeInto g (foldObserve [] grp)) []) =
      lookupKey [65] (foldObserve [] [([65], 7), ([66], 5), ([65], 10)]) :=
  claim_C3.2.2.2 [[([65], 10), ([66], 5)], [([65], 7)]]
    [([65], 7), ([66], 5), ([65], 10)] (by decide) [65]

/-- Accumulator states reachable by the operations the engine performs:
start empty, `observe` a record (worker scan), or merge another reachable
accumulator in (the merge loop).  The index records, in order, every record
folded into the state. -/
inductive ReachAcc : AccList → List (List Nat × Int) → Prop
  | base : ReachAcc [] []
  | obs {a rs} (k : List Nat) (v : Int) :
      ReachAcc a rs → ReachAcc (observe a k v) (rs ++ [(k, v)])
  | mrg {a ra b rb} :
      ReachAcc a ra → ReachAcc b rb → ReachAcc (mergeInto a b) (ra ++ rb)

/-- Every reachable accumulator is map-shaped and its lookups are exactly
the key-pointwise folds of the records folded in. -/
theorem reachAcc_lookup {a : AccList} {rs : List (List Nat × Int)} (h : ReachAcc a rs) :
    NodupKeys a ∧ ∀ k, lookupKey k a = valsFold none (recVals k rs) := by
  induction h with
  | base =>
    refine ⟨by simp [NodupKeys, accKeys], fun k => rfl⟩
  | obs k v _ ih =>
    obtain ⟨hnd, hl⟩ := ih
    refine ⟨nodupKeys_observe hnd k v, fun k' => ?_⟩
    rw [lookupKey_observe, recVals_append]
    by_cases hk : k = k'
    · rw [if_pos hk, hl k', valsFold_append]
      rw [show recVals k' [(k, v)] = [initStats v] by simp [recVals, List.filter_cons, hk]]
      rfl
    · rw [if_neg hk, hl k', valsFold_append]
      rw [show recVals k' [(k, v)] = [] by simp [recVals, List.filter_cons, hk]]
      rfl
  | mrg _ _ ih₁ ih₂ =>
    obtain ⟨hnd₁, hl₁⟩ := ih₁
    obtain ⟨hnd₂, hl₂⟩ := ih₂
    rename_i a1 ra b1 rb _ _
    refine ⟨nodupKeys_mergeInto _ _ hnd₁, fun k => ?_⟩
    rw [lookupKey_mergeInto, valsFold_keyVals_nodup hnd₂, hl₁ k, hl₂ k,
      recVals_append, valsFold_append,
      valsFold_out (recVals k rb) (valsFold none (recVals k ra))]

/-- Folding singleton stats keeps `min ≤ max`, `count ≥ 1` and an exact sum. -/
theorem valsFold_initStats_props :
    ∀ (vs : List Int) (s0 : WeatherStationStats) (acc : Int),
      s0.min ≤ s0.max → 1 ≤ s0.count → s0.sum = acc →
      ∃ s', valsFold (some s0) (vs.map initStats) = some s' ∧
        s'.min ≤ s'.max ∧ 1 ≤ s'.count ∧ s'.sum = acc + vs.sum := by
  intro vs
  induction vs with
  | nil =>
    intro s0 acc h1 h2 h3
    exact ⟨s0, rfl, h1, h2, by simpa using h3⟩
  | cons v t ih =>
    intro s0 acc h1 h2 h3
    have hstep : valsFold (some s0) ((v :: t).map initStats) =
        valsFold (some (addStats s0 (initStats v))) (t.map initStats) := rfl
    rw [hstep]
    have hmin : (addStats s0 (initStats v)).min ≤ (addStats s0 (initStats v)).max := by
      simp only [addStats, initStats]
      exact le_trans (min_le_left _ _) (le_trans h1 (le_max_left _ _))
    have hcnt : 1 ≤ (addStats s0 (initStats v)).count := by
      simp only [addStats, initStats]
      omega
    have hsum : (addStats s0 (initStats v)).sum = acc + v := by
      simp only [addStats, initStats]
      omega
    obtain ⟨s', heq, p1, p2, p3⟩ := ih (addStats s0 (initStats v)) (acc + v) hmin hcnt hsum
    refine ⟨s', heq, p1, p2, ?_⟩
    rw [p3]
    rw [List.sum_cons]
    ring

/-- C8: every entry of every accumulator reachable by `observe` and merge
operations satisfies `min ≤ max`, `count ≥ 1`, and `sum` equal to the exact
integer sum of all tenths-values folded into that key. -/
theorem claim_C8 {a : AccList} {rs : List (List Nat × Int)} (h : ReachAcc a rs) :
    ∀ kv ∈ a, kv.2.min ≤ kv.2.max ∧ 1 ≤ kv.2.count ∧
      kv.2.sum = ((rs.filter (fun r => r.1 = kv.1)).map (fun r => r.2)).sum := by
  intro kv hmem
  obtain ⟨hnd, hl⟩ := reachAcc_lookup h
  obtain ⟨k, s⟩ := kv
  have hlook : lookupKey k a = some s := lookupKey_eq_some_of_mem hnd hmem
  rw [hl k] at hlook
  have hrec : recVals k rs = ((rs.filter (fun r => r.1 = k)).map (fun r => r.2)).map initStats := by
    simp [recVals, List.map_map]
  rw [hrec] at hlook
  cases hvs : (rs.filter (fun r => r.1 = k)).map (fun r => r.2) with
  | nil =>
    rw [hvs] at hlook
    simp [valsFold] at hlook
  | cons v t =>
    rw [hvs] at hlook
    have hstep : valsFold none ((v :: t).map initStats) =
        valsFold (some (initStats v)) (t.map initStats) := rfl
    rw [hstep] at hlook
    obtain ⟨s', heq, p1, p2, p3⟩ :=
      valsFold_initStats_props t (initStats v) v (le_refl v) (le_refl 1) rfl
    rw [heq] at hlook
    injection hlook with hss
    subst hss
    refine ⟨p1, p2, ?_⟩
    rw [p3, List.sum_cons]

/-- Witness for C8: the state after observing `("A", 5)` and `("A", -3)` and
merging with a state that observed `("B", 7)`. -/
theorem claim_C8_witness :
    (([65], (⟨-3, 5, 2, 2⟩ : WeatherStationStats)) ∈
      mergeInto (observe (observe [] [65] 5) [65] (-3)) (observe [] [66] 7)) ∧
    ((⟨-3, 5, 2, 2⟩ : WeatherStationStats).min ≤ (⟨-3, 5, 2, 2⟩ : WeatherStationStats).max ∧
      1 ≤ (⟨-3, 5, 2, 2⟩ : WeatherStationStats).count ∧
      (⟨-3, 5, 2, 2⟩ : WeatherStationStats).sum =
        (((([([65], 5), ([65], -3)] ++ [([66], 7)] : List (List Nat × Int)).filter
          (fun r => r.1 = ([65], (⟨-3, 5, 2, 2⟩ : WeatherStationStats)).1)).map
          (fun r => r.2)).sum)) :=
  ⟨by decide, claim_C8 (ReachAcc.mrg
      (ReachAcc.obs [65] (-3) (ReachAcc.obs [65] 5 ReachAcc.base))
      (ReachAcc.obs [66] 7 ReachAcc.base))
    ([65], ⟨-3, 5, 2, 2⟩) (by decide)⟩

/-- No newline in the window means the scan finds nothing. -/
theorem findNl_eq_none {l : List Nat} (h : ∀ b ∈ l, b ≠ 10) : findNl l = none := by
  induction l with
  | nil => rfl
  | cons b rest ih =>
    have hb : b ≠ 10 := h b (List.mem_cons_self _ _)
    rw [findNl, if_neg hb, ih (fun x hx => h x (List.mem_cons_of_mem _ hx))]
    rfl

/-- C9: a stream whose first 500,000 bytes contain no newline makes
`aggregate_measurements` terminate immediately with the empty accumulator:
the refill finds the buffer already full (or the stream exhausted), reads
zero bytes, and exits — the entire remaining stream is discarded. -/
theorem claim_C9 (stream : List Nat) (h : ∀ b ∈ stream.take AGG_BUF_SIZE, b ≠ 10) :
    aggregate_measurements stream = some [] := by
  unfold aggregate_measurements
  rw [aggLoop.eq_def]
  have hnone : findNl (stream.take AGG_BUF_SIZE) = none := findNl_eq_none h
  split
  · rename_i i hi
    rw [hnone] at hi
    exact absurd hi (by simp)
  · have hempty : ((stream.drop AGG_BUF_SIZE).take
        (AGG_BUF_SIZE - (stream.take AGG_BUF_SIZE).length)).isEmpty = true := by
      by_cases hlen : stream.length ≤ AGG_BUF_SIZE
      · rw [List.drop_eq_nil_of_le hlen]
        simp
      · have hl : (stream.take AGG_BUF_SIZE).length = AGG_BUF_SIZE := by
          rw [List.length_take]
          omega
        rw [hl]
        simp
    rw [dif_pos hempty]

/-- Witness for C9: a one-byte stream `"A"` (no newline anywhere) yields the
empty accumulator even though bytes remain unconsumed. -/
theorem claim_C9_witness : aggregate_measurements [65] = some [] :=
  claim_C9 [65] (by decide)

/-- The byte stream of a list of lines, each with its `'\n'` terminator
(what a line-aligned chunk of a well-formed file contains). -/
def linesBytes (ls : List (List Nat)) : List Nat := (ls.map (fun l => l ++ [10])).join

/-- The record a well-formed line parses to. -/
def lineRec (l : List Nat) : List Nat × Int := (parse_line l).getD ([], 0)

theorem linesBytes_cons (L : List Nat) (ls : List (List Nat)) :
    linesBytes (L :: ls) = L ++ 10 :: linesBytes ls := by
  simp [linesBytes]

/-- A well-formed measurement contains no newline byte. -/
theorem measBytes_no_nl {m : Meas} (hm : Meas.wfm m) : ∀ b ∈ Meas.bytes m, b ≠ 10 := by
  obtain ⟨htd, ho, hf⟩ := hm
  obtain ⟨neg, tens, o, f⟩ := m
  simp only [isDigitByte] at ho hf
  intro b hb
  cases tens with
  | none =>
    cases neg with
    | false =>
      simp [Meas.bytes] at hb
      omega
    | true =>
      simp [Meas.bytes] at hb
      omega
  | some t =>
    have htt : isDigitByte t := htd
    simp only [isDigitByte] at htt
    cases neg with
    | false =>
      simp [Meas.bytes] at hb
      omega
    | true =>
      simp [Meas.bytes] at hb
      omega

/-- A well-formed measurement occupies at most 5 bytes. -/
theorem measBytes_len (m : Meas) : (Meas.bytes m).length ≤ 5 := by
  obtain ⟨neg, tens, o, f⟩ := m
  cases tens <;> cases neg <;> simp [Meas.bytes]

/-- A well-formed line contains no newline byte. -/
theorem wfLine_no_nl {l : List Nat} (h : wfLine l) : ∀ b ∈ l, b ≠ 10 := by
  obtain ⟨key, m, rfl, hm, hkey, _⟩ := h
  intro b hb
  rcases List.mem_append.mp hb with h | h
  · exact (hkey b h).2
  · rcases List.mem_cons.mp h with h | h
    · omega
    · exact measBytes_no_nl hm b h

/-- A well-formed line occupies at most 106 bytes before its terminator. -/
theorem wfLine_len {l : List Nat} (h : wfLine l) : l.length ≤ 106 := by
  obtain ⟨key, m, rfl, hm, _, hlen⟩ := h
  have := measBytes_len m
  simp only [List.length_append, List.length_cons]
  omega

/-- A well-formed line parses without panicking, to its record. -/
theorem wfLine_parse {l : List Nat} (h : wfLine l) : parse_line l = some (lineRec l) := by
  obtain ⟨key, m, rfl, hm, _, _⟩ := h
  rw [lineRec, parse_line_grammar key m hm]
  rfl

/-- Finding the newline that terminates the leading line. -/
theorem findNl_append_nl {L : List Nat} (hnn : ∀ b ∈ L, b ≠ 10) (tail : List Nat) :
    findNl (L ++ 10 :: tail) = some L.length := by
  induction L with
  | nil => simp [findNl]
  | cons b rest ih =>
    have hb : b ≠ 10 := hnn b (List.mem_cons_self _ _)
    rw [List.cons_append, findNl, if_neg hb,
      ih (fun x hx => hnn x (List.mem_cons_of_mem _ hx))]
    rfl

/-- The worker scan loop, run over the bytes of well-formed `'\n'`-terminated
lines, observes exactly those lines' records: the simulation lemma connecting
`aggregate_measurements` to the abstract per-record fold.  `w` is the current
buffer window, `r` the unread remainder. -/
theorem aggLoop_lines : ∀ (ls : List (List Nat)), (∀ l ∈ ls, wfLine l) →
    ∀ (acc : AccList) (w r : List Nat), w ++ r = linesBytes ls →
      w.length ≤ AGG_BUF_SIZE →
      aggLoop acc w r = some (foldObserve acc (ls.map lineRec)) := by
  intro ls
  induction ls with
  | nil =>
    intro _ acc w r hwr _
    obtain ⟨hw, hr⟩ := List.append_eq_nil.mp (by simpa [linesBytes] using hwr)
    subst hw
    subst hr
    rw [aggLoop.eq_def]
    split
    · rename_i i hi
      simp [findNl] at hi
    · rw [dif_pos (by simp)]
      rfl
  | cons L ls' ih =>
    intro hwf acc w r hwr hwle
    have hwfL : wfLine L := hwf L (List.mem_cons_self _ _)
    have hwf' : ∀ l ∈ ls', wfLine l := fun l hl => hwf l (List.mem_cons_of_mem _ hl)
    have hnn : ∀ b ∈ L, b ≠ 10 := wfLine_no_nl hwfL
    have hLlen : L.length ≤ 106 := wfLine_len hwfL
    have hbuf : 110 ≤ AGG_BUF_SIZE := by norm_num [AGG_BUF_SIZE]
    rw [linesBytes_cons] at hwr
    have hcons : ∀ (acc : AccList) (w r : List Nat),
        w ++ r = L ++ 10 :: linesBytes ls' → w.length ≤ AGG_BUF_SIZE →
        L.length + 1 ≤ w.length →
        aggLoop acc w r = some (foldObserve acc ((L :: ls').map lineRec)) := by
      intro acc w r hwr hwle hLw
      have hwtake : w.take (L.length + 1) = L ++ [10] := by
        have h1 : (w ++ r).take (L.length + 1) = w.take (L.length + 1) :=
          List.take_append_of_le_length hLw
        have h2 : (L ++ 10 :: linesBytes ls').take (L.length + 1) = L ++ [10] := by
          rw [List.take_append 1]
          rfl
        rw [← h1, hwr, h2]
      have hwshape : w = L ++ 10 :: w.drop (L.length + 1) := by
        conv_lhs => rw [← List.take_append_drop (L.length + 1) w]
        rw [hwtake]
        simp
      have hfind : findNl w = some L.length := by
        rw [hwshape]
        exact findNl_append_nl hnn _
      rw [aggLoop.eq_def]
      split
      · rename_i i hi
        rw [hfind] at hi
        injection hi with hi
        subst hi
        have htakeL : w.take L.length = L := by
          rw [hwshape]
          exact List.take_left L _
        have hrest : w.drop (L.length + 1) ++ r = linesBytes ls' := by
          have h0 := hwr
          rw [hwshape, List.append_assoc] at h0
          have h1 := List.append_cancel_left h0
          simp only [List.cons_append] at h1
          injection h1
        simp only [htakeL, wfLine_parse hwfL]
        rw [ih hwf' (observe acc (lineRec L).1 (lineRec L).2) _ r hrest
          (by rw [List.length_drop]; omega)]
        rfl
      · rename_i hno
        rw [hfind] at hno
        exact absurd hno (by simp)
    by_cases hLw : L.length + 1 ≤ w.length
    · exact hcons acc w r hwr hwle hLw
    · push_neg at hLw
      have hwpre : w = L.take w.length := by
        have h1 : (w ++ r).take w.length = w := List.take_left w r
        have h2 : (L ++ 10 :: linesBytes ls').take w.length = L.take w.length :=
          List.take_append_of_le_length (by omega)
        calc w = (w ++ r).take w.length := h1.symm
          _ = (L ++ 10 :: linesBytes ls').take w.length := by rw [hwr]
          _ = L.take w.length := h2
      have hwnn : ∀ b ∈ w, b ≠ 10 := by
        intro b hb
        rw [hwpre] at hb
        exact hnn b (List.mem_of_mem_take hb)
      have hfind : findNl w = none := findNl_eq_none hwnn
      have hrlen : L.length + 1 ≤ w.length + r.length := by
        have := congrArg List.length hwr
        simp only [List.length_append, List.length_cons] at this
        omega
      rw [aggLoop.eq_def]
      split
      · rename_i i hi
        rw [hfind] at hi
        exact absurd hi (by simp)
      · have hspace : 1 ≤ AGG_BUF_SIZE - w.length := by omega
        have hrne : r ≠ [] := by
          intro hre
          subst hre
          simp at hrlen
          omega
        have htne : ¬ (r.take (AGG_BUF_SIZE - w.length)).isEmpty = true := by
          rw [List.isEmpty_iff, List.take_eq_nil_iff]
          push_neg
          exact ⟨by omega, hrne⟩
        rw [dif_neg htne]
        apply hcons
        · rw [List.append_assoc, List.take_append_drop]
          exact hwr
        · rw [List.length_append, List.length_take]
          omega
        · rw [List.length_append, List.length_take]
          omega

/-- A worker over a line-aligned chunk of well-formed lines computes exactly
the fold of those lines' records. -/
theorem aggregate_measurements_lines (ls : List (List Nat))
    (hwf : ∀ l ∈ ls, wfLine l) :
    aggregate_measurements (linesBytes ls) = some (foldObserve [] (ls.map lineRec)) := by
  unfold aggregate_measurements
  exact aggLoop_lines ls hwf [] _ _ (List.take_append_drop _ _) (by
    rw [List.length_take]
    exact Nat.min_le_left _ _)

/-- The global accumulator obtained by merging the workers of every record
group, in order. -/
def mergeAll (gs : List (List (List Nat × Int))) : AccList :=
  gs.foldl (fun g grp => mergeInto g (foldObserve [] grp)) []

/-- `runChunks` over line-aligned chunks of well-formed lines computes the
merge of the per-chunk record folds. -/
theorem runChunks_fold (groups : List (List (List Nat))) :
    (∀ grp ∈ groups, ∀ l ∈ grp, wfLine l) →
    ∀ g : AccList,
      (groups.map linesBytes).foldl
        (fun og bytes =>
          match og, aggregate_measurements bytes with
          | some g, some p => some (mergeInto g p)
          | _, _ => none)
        (some g) =
      some (groups.foldl (fun g grp => mergeInto g (foldObserve [] (grp.map lineRec))) g) := by
  induction groups with
  | nil => intro _ g; rfl
  | cons grp gs ih =>
    intro hwf g
    have hgrp := aggregate_measurements_lines grp
      (fun l hl => hwf grp (List.mem_cons_self _ _) l hl)
    simp only [List.map_cons, List.foldl_cons, hgrp]
    exact ih (fun grp' hg l hl => hwf grp' (List.mem_cons_of_mem _ hg) l hl) _

/-- `mergeAll` keeps keys pairwise distinct. -/
theorem nodupKeys_mergeAll_aux (gs : List (List (List Nat × Int))) :
    ∀ g : AccList, NodupKeys g →
      NodupKeys (gs.foldl (fun g grp => mergeInto g (foldObserve [] grp)) g) := by
  induction gs with
  | nil => intro g h; exact h
  | cons grp gs' ih =>
    intro g h
    exact ih _ (nodupKeys_mergeInto _ _ h)

theorem nodupKeys_mergeAll (gs : List (List (List Nat × Int))) : NodupKeys (mergeAll gs) :=
  nodupKeys_mergeAll_aux gs [] (by simp [NodupKeys, accKeys])

/-- Lookup in `mergeAll` is the key-pointwise fold of all groups' records. -/
theorem lookupKey_mergeAll_flat (gs : List (List (List Nat × Int))) (k : List Nat) :
    lookupKey k (mergeAll gs) = valsFold none (recVals k gs.join) := by
  unfold mergeAll
  rw [lookupKey_mergeAll gs [] k, recVals_join]
  rfl

/-- C1: a well-formed file processed as one single chunk and processed as
any split into line-aligned chunks produce identical output strings from
`calc`'s pipeline. -/
theorem claim_C1 (ls : List (List Nat)) (groups : List (List (List Nat)))
    (hwf : ∀ l ∈ ls, wfLine l) (hsplit : groups.join = ls) :
    calcOutput [linesBytes ls] = calcOutput (groups.map linesBytes) := by
  have hwfg : ∀ grp ∈ groups, ∀ l ∈ grp, wfLine l := by
    intro grp hg l hl
    exact hwf l (by rw [← hsplit]; exact List.mem_join.mpr ⟨grp, hg, hl⟩)
  have hsingle : runChunks [linesBytes ls] = some (mergeAll [ls.map lineRec]) := by
    have h := runChunks_fold [ls] (by
      intro grp hg l hl
      rcases List.mem_singleton.mp hg with rfl
      exact hwf l hl) []
    simpa [runChunks, mergeAll] using h
  have hgroups : runChunks (groups.map linesBytes) =
      some (mergeAll (groups.map (fun grp => grp.map lineRec))) := by
    have h := runChunks_fold groups hwfg []
    rw [runChunks, h]
    congr 1
    unfold mergeAll
    rw [List.foldl_map]
  unfold calcOutput
  rw [hsingle, hgroups]
  simp only [Option.map_some']
  congr 1
  apply renderReport_eq_of_lookup (nodupKeys_mergeAll _) (nodupKeys_mergeAll _)
  intro k
  rw [lookupKey_mergeAll_flat, lookupKey_mergeAll_flat]
  congr 2
  have h2 : (groups.map (fun grp => grp.map lineRec)).join = ls.map lineRec := by
    have hsplit' : groups.flatten = ls := hsplit
    have h3 := (List.map_join lineRec groups).symm
    rw [hsplit'] at h3
    exact h3
  rw [h2]
  simp

/-- Witness for C1: the 3-line file `"A;1.0\nB;-2.5\nA;3.0\n"` processed as
one chunk and as two line-aligned chunks. -/
theorem claim_C1_witness :
    calcOutput [linesBytes [[65, 59, 49, 46, 48], [66, 59, 45, 50, 46, 53],
        [65, 59, 51, 46, 48]]] =
      calcOutput ([[[65, 59, 49, 46, 48]], [[66, 59, 45, 50, 46, 53],
        [65, 59, 51, 46, 48]]].map linesBytes) := by
  apply claim_C1
  · intro l hl
    simp only [List.mem_cons, List.not_mem_nil, or_false] at hl
    rcases hl with rfl | rfl | rfl
    · exact ⟨[65], ⟨false, none, 49, 48⟩, rfl, by decide, by decide, by decide⟩
    · exact ⟨[66], ⟨true, none, 50, 53⟩, rfl, by decide, by decide, by decide⟩
    · exact ⟨[65], ⟨false, none, 51, 48⟩, rfl, by decide, by decide, by decide⟩
  · rfl

/-- The modelled tenths rounding is correct: the displayed tenths integer is
within half a unit of `sum/count`, with exact ties broken to even. -/
theorem roundHalfEvenDiv_close (s : Int) (n : Nat) (hn : 0 < n) :
    2 * |s - n * roundHalfEvenDiv s n| ≤ n ∧
      (2 * s.emod n = n → roundHalfEvenDiv s n % 2 = 0) := by
  have hne : (n : Int) ≠ 0 := by exact_mod_cast hn.ne'
  have h1 : (n : Int) * (s.ediv n) + s.emod n = s := Int.ediv_add_emod s n
  have h2 : 0 ≤ s.emod n := Int.emod_nonneg s hne
  have h3 : s.emod n < n := Int.emod_lt_of_pos s (by exact_mod_cast hn)
  have hne0 : ¬ n = 0 := by omega
  by_cases c1 : 2 * s.emod n < (n : Int)
  · have hv : roundHalfEvenDiv s n = s.ediv n := by
      unfold roundHalfEvenDiv
      rw [if_neg hne0, if_pos c1]
    rw [hv]
    constructor
    · have h4 : s - (n : Int) * s.ediv n = s.emod n := by linarith
      rw [h4, abs_of_nonneg h2]
      linarith
    · intro ht
      exfalso
      linarith
  · by_cases c2 : (n : Int) < 2 * s.emod n
    · have hv : roundHalfEvenDiv s n = s.ediv n + 1 := by
        unfold roundHalfEvenDiv
        rw [if_neg hne0, if_neg c1, if_pos c2]
      rw [hv]
      constructor
      · have h4 : s - (n : Int) * (s.ediv n + 1) = s.emod n - n := by
          have : (n : Int) * (s.ediv n + 1) = n * s.ediv n + n := by ring
          linarith
        rw [h4, abs_of_nonpos (by linarith)]
        linarith
      · intro ht
        exfalso
        linarith
    · have htie : 2 * s.emod n = (n : Int) := by linarith
      by_cases c3 : s.ediv n % 2 = 0
      · have hv : roundHalfEvenDiv s n = s.ediv n := by
          unfold roundHalfEvenDiv
          rw [if_neg hne0, if_neg c1, if_neg c2, if_pos c3]
        rw [hv]
        constructor
        · have h4 : s - (n : Int) * s.ediv n = s.emod n := by linarith
          rw [h4, abs_of_nonneg h2]
          linarith
        · intro _
          exact c3
      · have hv : roundHalfEvenDiv s n = s.ediv n + 1 := by
          unfold roundHalfEvenDiv
          rw [if_neg hne0, if_neg c1, if_neg c2, if_neg c3]
        rw [hv]
        constructor
        · have h4 : s - (n : Int) * (s.ediv n + 1) = s.emod n - n := by
            have : (n : Int) * (s.ediv n + 1) = n * s.ediv n + n := by ring
            linarith
          rw [h4, abs_of_nonpos (by linarith)]
          linarith
        · intro _
          rcases Int.emod_two_eq (s.ediv n) with h | h
          · exact absurd h c3
          · omega

/-- Every rendered numeric field carries exactly one fractional digit. -/
theorem fmtTenths_frac (v : Int) :
    ∃ p : String, ∃ c : Char,
      fmtTenths v = p ++ "." ++ c.toString ∧ c.isDigit = true := by
  refine ⟨(if v < 0 then "-" else "") ++ toString (v.natAbs / 10),
    Nat.digitChar (v.natAbs % 10), rfl, ?_⟩
  have hlt : v.natAbs % 10 < 10 := Nat.mod_lt _ (by norm_num)
  set d := v.natAbs % 10 with hd
  interval_cases d <;> decide

/-- C7: the reporter renders `"{k1=min1/mean1/max1, ...}\n"` with the keys
in ascending byte-lexicographic order, one fractional digit per numeric
field, min and max the stored tenths divided by ten, the mean field the
half-even rounding of `sum/10.0/count` to one decimal, and `"{}\n"` for the
empty accumulator; the spec's 3-line example renders exactly as stated. -/
theorem claim_C7 :
    renderReport [] = "\x7b\x7d\n" ∧
    (∀ acc : AccList, List.Pairwise entryLe (sortAccum acc) ∧
      List.Perm (sortAccum acc) acc ∧
      renderReport acc =
        "\x7b" ++ String.intercalate ", " ((sortAccum acc).map entryString) ++ "\x7d\n") ∧
    (∀ kv : List Nat × WeatherStationStats,
      entryString kv = lossyString kv.1 ++ "=" ++ fmtTenths kv.2.min ++ "/" ++
        fmtMean kv.2.sum kv.2.count ++ "/" ++ fmtTenths kv.2.max) ∧
    (∀ v : Int, ∃ p : String, ∃ c : Char,
      fmtTenths v = p ++ "." ++ c.toString ∧ c.isDigit = true) ∧
    (∀ (s : Int) (n : Nat), fmtMean s n = fmtTenths (roundHalfEvenDiv s n)) ∧
    (∀ (s : Int) (n : Nat), 0 < n →
      2 * |s - n * roundHalfEvenDiv s n| ≤ n ∧
        (2 * s.emod n = n → roundHalfEvenDiv s n % 2 = 0)) ∧
    renderReport [([65], ⟨10, 30, 40, 2⟩), ([66], ⟨-25, -25, -25, 1⟩)] =
      "\x7bA=1.0/2.0/3.0, B=-2.5/-2.5/-2.5\x7d\n" := by
  refine ⟨by decide, ?_, fun kv => rfl, fmtTenths_frac, fun s n => rfl,
    roundHalfEvenDiv_close, ?_⟩
  · intro acc
    exact ⟨sortAccum_sorted acc, sortAccum_perm acc, rfl⟩
  · have hA : lossyString [65] = "A" := by simp [lossyString, utf8DecodeLossy]
    have hB : lossyString [66] = "B" := by simp [lossyString, utf8DecodeLossy]
    have he1 : entryString ([65], ⟨10, 30, 40, 2⟩) = "A=1.0/2.0/3.0" := by
      simp only [entryString, hA]
      decide
    have he2 : entryString ([66], ⟨-25, -25, -25, 1⟩) = "B=-2.5/-2.5/-2.5" := by
      simp only [entryString, hB]
      decide
    have hsort : sortAccum [([65], ⟨10, 30, 40, 2⟩), ([66], ⟨-25, -25, -25, 1⟩)] =
        [([65], ⟨10, 30, 40, 2⟩), ([66], ⟨-25, -25, -25, 1⟩)] := by decide
    rw [renderReport, hsort, List.map_cons, List.map_cons, List.map_nil, he1, he2]
    decide

/-- Arithmetic content of the second-byte range check. -/
theorem sndOk_bounds {b0 b1 : Nat} (h : sndOk b0 b1 = true) :
    128 ≤ b1 ∧ b1 ≤ 191 ∧ (b0 = 224 → 160 ≤ b1) ∧ (b0 = 237 → b1 ≤ 159) ∧
      (b0 = 240 → 144 ≤ b1) ∧ (b0 = 244 → b1 ≤ 143) := by
  simp only [sndOk, sndLo, sndHi, Bool.and_eq_true, decide_eq_true_eq] at h
  obtain ⟨hlo, hhi⟩ := h
  split_ifs at hlo hhi <;> omega

/-- Arithmetic content of the continuation-byte check. -/
theorem contByte_bounds {b : Nat} (h : contByte b = true) : 128 ≤ b ∧ b ≤ 191 := by
  simpa [contByte] using h

/-- A decoded 3-byte scalar is in range and is not a surrogate. -/
theorem cp3_scalar {b0 b1 b2 : Nat} (h0 : 224 ≤ b0) (h0' : b0 ≤ 239)
    (hs : sndOk b0 b1 = true) (hc : contByte b2 = true) :
    (b0 - 224) * 4096 + (b1 - 128) * 64 + (b2 - 128) < 1114112 ∧
      ¬(55296 ≤ (b0 - 224) * 4096 + (b1 - 128) * 64 + (b2 - 128) ∧
        (b0 - 224) * 4096 + (b1 - 128) * 64 + (b2 - 128) ≤ 57343) := by
  have hb := sndOk_bounds hs
  have hcb := contByte_bounds hc
  obtain ⟨hb1, hb2, _, h237, _, _⟩ := hb
  constructor
  · omega
  · by_cases hb237 : b0 = 237
    · have := h237 hb237
      omega
    · omega

/-- A decoded 4-byte scalar is in range and is not a surrogate. -/
theorem cp4_scalar {b0 b1 b2 b3 : Nat} (h0 : 240 ≤ b0) (h0' : b0 ≤ 244)
    (hs : sndOk b0 b1 = true) (hc2 : contByte b2 = true) (hc3 : contByte b3 = true) :
    (b0 - 240) * 262144 + (b1 - 128) * 4096 + (b2 - 128) * 64 + (b3 - 128) < 1114112 ∧
      ¬(55296 ≤ (b0 - 240) * 262144 + (b1 - 128) * 4096 + (b2 - 128) * 64 + (b3 - 128) ∧
        (b0 - 240) * 262144 + (b1 - 128) * 4096 + (b2 - 128) * 64 + (b3 - 128) ≤ 57343) := by
  have hb := sndOk_bounds hs
  have hcb2 := contByte_bounds hc2
  have hcb3 := contByte_bounds hc3
  obtain ⟨hb1, hb2, _, _, h240, h244⟩ := hb
  constructor
  · by_cases h : b0 = 244
    · have := h244 h
      omega
    · omega
  · by_cases h : b0 = 240
    · have := h240 h
      omega
    · omega

set_option maxRecDepth 8000 in
/-- Every scalar value the lossy decoder emits is a valid Unicode scalar:
below 0x110000 and not a surrogate. -/
theorem utf8DecodeLossy_scalars (k : List Nat) : ∀ c ∈ utf8DecodeLossy k,
    c < 1114112 ∧ ¬(55296 ≤ c ∧ c ≤ 57343) := by
  induction k using utf8DecodeLossy.induct with
  | case1 =>
    intro c hc
    rw [utf8DecodeLossy.eq_def] at hc
    simp at hc
  | case2 b0 rest h ih =>
    intro c hc
    rw [utf8DecodeLossy.eq_def] at hc
    simp [h] at hc
    rcases hc with rfl | hc
    · refine ⟨by omega, by omega⟩
    · exact ih c hc
  | case3 b0 h h2 =>
    intro c hc
    rw [utf8DecodeLossy.eq_def] at hc
    simp [h, h2] at hc
    subst hc
    refine ⟨by omega, by omega⟩
  | case4 b0 h h2 b1 r1 hcont ih =>
    intro c hc
    rw [utf8DecodeLossy.eq_def] at hc
    simp [h, h2, hcont] at hc
    simp only [Bool.and_eq_true, decide_eq_true_eq] at h2
    have hcb := contByte_bounds hcont
    rcases hc with rfl | hc
    · refine ⟨by omega, by omega⟩
    · exact ih c hc
  | case5 b0 h h2 b1 r1 hcont ih =>
    intro c hc
    rw [utf8DecodeLossy.eq_def] at hc
    simp [h, h2, hcont] at hc
    rcases hc with rfl | hc
    · refine ⟨by omega, by omega⟩
    · exact ih c hc
  | case6 b0 h h2 h3 =>
    intro c hc
    rw [utf8DecodeLossy.eq_def] at hc
    simp [h, h2, h3] at hc
    subst hc
    refine ⟨by omega, by omega⟩
  | case7 b0 h h2 h3 b1 hs _ =>
    intro c hc
    rw [utf8DecodeLossy.eq_def] at hc
    simp [h, h2, h3, hs] at hc
    subst hc
    refine ⟨by omega, by omega⟩
  | case8 b0 h h2 h3 b1 hs b2 r2 hcont _ ih =>
    intro c hc
    rw [utf8DecodeLossy.eq_def] at hc
    simp [h, h2, h3, hs, hcont] at hc
    simp only [Bool.and_eq_true, decide_eq_true_eq] at h3
    rcases hc with rfl | hc
    · exact cp3_scalar h3.1 h3.2 hs hcont
    · exact ih c hc
  | case9 b0 h h2 h3 b1 hs b2 r2 hcont _ ih =>
    intro c hc
    rw [utf8DecodeLossy.eq_def] at hc
    simp [h, h2, h3, hs, hcont] at hc
    rcases hc with rfl | hc
    · refine ⟨by omega, by omega⟩
    · exact ih c hc
  | case10 b0 h h2 h3 b1 r1 hs ih =>
    intro c hc
    rw [utf8DecodeLossy.eq_def] at hc
    simp [h, h2, h3, hs] at hc
    rcases hc with rfl | hc
    · refine ⟨by omega, by omega⟩
    · exact ih c hc
  | case11 b0 h h2 h3 h4 =>
    intro c hc
    rw [utf8DecodeLossy.eq_def] at hc
    simp [h, h2, h3, h4] at hc
    subst hc
    refine ⟨by omega, by omega⟩
  | case12 b0 h h2 h3 h4 b1 hs _ =>
    intro c hc
    rw [utf8DecodeLossy.eq_def] at hc
    simp [h, h2, h3, h4, hs] at hc
    subst hc
    refine ⟨by omega, by omega⟩
  | case13 b0 h h2 h3 h4 b1 hs b2 hcont _ _ _ =>
    intro c hc
    rw [utf8DecodeLossy.eq_def] at hc
    simp [h, h2, h3, h4, hs, hcont] at hc
    subst hc
    refine ⟨by omega, by omega⟩
  | case14 b0 h h2 h3 h4 b1 hs b2 hcont b3 r3 hcont3 _ _ _ ih =>
    intro c hc
    rw [utf8DecodeLossy.eq_def] at hc
    simp [h, h2, h3, h4, hs, hcont, hcont3] at hc
    simp only [Bool.and_eq_true, decide_eq_true_eq] at h4
    rcases hc with rfl | hc
    · exact cp4_scalar h4.1 h4.2 hs hcont hcont3
    · exact ih c hc
  | case15 b0 h h2 h3 h4 b1 hs b2 hcont b3 r3 hcont3 _ _ _ ih =>
    intro c hc
    rw [utf8DecodeLossy.eq_def] at hc
    simp [h, h2, h3, h4, hs, hcont, hcont3] at hc
    rcases hc with rfl | hc
    · refine ⟨by omega, by omega⟩
    · exact ih c hc
  | case16 b0 h h2 h3 h4 b1 hs b2 r2 hcont _ ih =>
    intro c hc
    rw [utf8DecodeLossy.eq_def] at hc
    simp [h, h2, h3, h4, hs, hcont] at hc
    rcases hc with rfl | hc
    · refine ⟨by omega, by omega⟩
    · exact ih c hc
  | case17 b0 h h2 h3 h4 b1 r1 hs ih =>
    intro c hc
    rw [utf8DecodeLossy.eq_def] at hc
    simp [h, h2, h3, h4, hs] at hc
    rcases hc with rfl | hc
    · refine ⟨by omega, by omega⟩
    · exact ih c hc
  | case18 b0 rest h h2 h3 h4 ih =>
    intro c hc
    rw [utf8DecodeLossy.eq_def] at hc
    simp [h, h2, h3, h4] at hc
    rcases hc with rfl | hc
    · refine ⟨by omega, by omega⟩
    · exact ih c hc


theorem utf8Encode_cons (c : Nat) (cs : List Nat) :
    utf8Encode (c :: cs) = utf8EncodeChar c ++ utf8Encode cs := by
  simp [utf8Encode]

set_option maxRecDepth 8000 in
/-- Decoding well-formed UTF-8 and re-encoding reproduces the bytes: a valid
key is rendered with exactly its own bytes. -/
theorem utf8_roundtrip (k : List Nat) : utf8Valid k = true →
    utf8Encode (utf8DecodeLossy k) = k := by
  induction k using utf8DecodeLossy.induct with
  | case1 =>
    intro _
    rw [utf8DecodeLossy.eq_def]
    rfl
  | case2 b0 rest h ih =>
    intro hv
    rw [utf8Valid.eq_def] at hv
    simp only [if_pos h] at hv
    rw [utf8DecodeLossy.eq_def]
    simp only [if_pos h]
    rw [utf8Encode_cons, ih hv]
    rw [show utf8EncodeChar b0 = [b0] by rw [utf8EncodeChar, if_pos h]]
    rfl
  | case3 b0 h h2 =>
    intro hv
    rw [utf8Valid.eq_def] at hv
    simp [h, h2] at hv
  | case4 b0 h h2 b1 r1 hcont ih =>
    intro hv
    rw [utf8Valid.eq_def] at hv
    simp only [if_neg h, h2, if_true, if_pos hcont] at hv
    rw [utf8DecodeLossy.eq_def]
    simp only [if_neg h, h2, if_true, if_pos hcont]
    rw [utf8Encode_cons, ih hv]
    have h2' : 194 ≤ b0 ∧ b0 ≤ 223 := by simpa using h2
    have hcb := contByte_bounds hcont
    have henc : utf8EncodeChar ((b0 - 192) * 64 + (b1 - 128)) = [b0, b1] := by
      rw [utf8EncodeChar, if_neg (by omega), if_pos (by omega)]
      simp only [List.cons.injEq, and_true]
      exact ⟨by omega, by omega⟩
    rw [henc]
    rfl
  | case5 b0 h h2 b1 r1 hcont ih =>
    intro hv
    rw [utf8Valid.eq_def] at hv
    simp [h, h2, hcont] at hv
  | case6 b0 h h2 h3 =>
    intro hv
    rw [utf8Valid.eq_def] at hv
    simp [h, h2, h3] at hv
  | case7 b0 h h2 h3 b1 hs _ =>
    intro hv
    rw [utf8Valid.eq_def] at hv
    simp [h, h2, h3, hs] at hv
  | case8 b0 h h2 h3 b1 hs b2 r2 hcont _ ih =>
    intro hv
    rw [utf8Valid.eq_def] at hv
    simp only [if_neg h, h2, h3, Bool.false_eq_true, if_false, if_true, if_pos hs,
      if_pos hcont] at hv
    rw [utf8DecodeLossy.eq_def]
    simp only [if_neg h, h2, h3, Bool.false_eq_true, if_false, if_true, if_pos hs,
      if_pos hcont]
    rw [utf8Encode_cons, ih hv]
    have h3' : 224 ≤ b0 ∧ b0 ≤ 239 := by simpa using h3
    have hb := sndOk_bounds hs
    have hcb := contByte_bounds hcont
    obtain ⟨hb1, hb2, h224, _, _, _⟩ := hb
    have hlow : 2048 ≤ (b0 - 224) * 4096 + (b1 - 128) * 64 + (b2 - 128) := by
      by_cases hcase : b0 = 224
      · have := h224 hcase
        omega
      · omega
    have henc : utf8EncodeChar ((b0 - 224) * 4096 + (b1 - 128) * 64 + (b2 - 128)) =
        [b0, b1, b2] := by
      rw [utf8EncodeChar, if_neg (by omega), if_neg (by omega), if_pos (by omega)]
      simp only [List.cons.injEq, and_true]
      exact ⟨by omega, by omega, by omega⟩
    rw [henc]
    rfl
  | case9 b0 h h2 h3 b1 hs b2 r2 hcont _ ih =>
    intro hv
    rw [utf8Valid.eq_def] at hv
    simp [h, h2, h3, hs, hcont] at hv
  | case10 b0 h h2 h3 b1 r1 hs ih =>
    intro hv
    rw [utf8Valid.eq_def] at hv
    simp [h, h2, h3, hs] at hv
  | case11 b0 h h2 h3 h4 =>
    intro hv
    rw [utf8Valid.eq_def] at hv
    simp [h, h2, h3, h4] at hv
  | case12 b0 h h2 h3 h4 b1 hs _ =>
    intro hv
    rw [utf8Valid.eq_def] at hv
    simp [h, h2, h3, h4, hs] at hv
  | case13 b0 h h2 h3 h4 b1 hs b2 hcont _ _ _ =>
    intro hv
    rw [utf8Valid.eq_def] at hv
    simp [h, h2, h3, h4, hs, hcont] at hv
  | case14 b0 h h2 h3 h4 b1 hs b2 hcont b3 r3 hcont3 _ _ _ ih =>
    intro hv
    rw [utf8Valid.eq_def] at hv
    simp only [if_neg h, h2, h3, h4, Bool.false_eq_true, if_false, if_true, if_pos hs,
      if_pos hcont, if_pos hcont3] at hv
    rw [utf8DecodeLossy.eq_def]
    simp only [if_neg h, h2, h3, h4, Bool.false_eq_true, if_false, if_true, if_pos hs,
      if_pos hcont, if_pos hcont3]
    rw [utf8Encode_cons, ih hv]
    have h4' : 240 ≤ b0 ∧ b0 ≤ 244 := by simpa using h4
    have hb := sndOk_bounds hs
    have hcb2 := contByte_bounds hcont
    have hcb3 := contByte_bounds hcont3
    obtain ⟨hb1, hb2, _, _, h240, h244⟩ := hb
    have hlow : 65536 ≤ (b0 - 240) * 262144 + (b1 - 128) * 4096 + (b2 - 128) * 64 +
        (b3 - 128) := by
      by_cases hcase : b0 = 240
      · have := h240 hcase
        omega
      · omega
    have henc : utf8EncodeChar ((b0 - 240) * 262144 + (b1 - 128) * 4096 + (b2 - 128) * 64 +
        (b3 - 128)) = [b0, b1, b2, b3] := by
      rw [utf8EncodeChar, if_neg (by omega), if_neg (by omega), if_neg (by omega)]
      simp only [List.cons.injEq, and_true]
      exact ⟨by omega, by omega, by omega, by omega⟩
    rw [henc]
    rfl
  | case15 b0 h h2 h3 h4 b1 hs b2 hcont b3 r3 hcont3 _ _ _ ih =>
    intro hv
    rw [utf8Valid.eq_def] at hv
    simp [h, h2, h3, h4, hs, hcont, hcont3] at hv
  | case16 b0 h h2 h3 h4 b1 hs b2 r2 hcont _ ih =>
    intro hv
    rw [utf8Valid.eq_def] at hv
    simp [h, h2, h3, h4, hs, hcont] at hv
  | case17 b0 h h2 h3 h4 b1 r1 hs ih =>
    intro hv
    rw [utf8Valid.eq_def] at hv
    simp [h, h2, h3, h4, hs] at hv
  | case18 b0 rest h h2 h3 h4 ih =>
    intro hv
    rw [utf8Valid.eq_def] at hv
    simp [h, h2, h3, h4] at hv

set_option maxRecDepth 8000 in
theorem utf8_invalid_fffd (k : List Nat) : utf8Valid k = false →
    65533 ∈ utf8DecodeLossy k := by
  induction k using utf8DecodeLossy.induct with
  | case1 =>
    intro hv
    rw [utf8Valid.eq_def] at hv
    simp at hv
  | case2 b0 rest h ih =>
    intro hv
    rw [utf8Valid.eq_def] at hv
    simp only [if_pos h] at hv
    rw [utf8DecodeLossy.eq_def]
    simp only [if_pos h]
    exact List.mem_cons_of_mem _ (ih hv)
  | case3 b0 h h2 =>
    intro _
    rw [utf8DecodeLossy.eq_def]
    simp [h, h2]
  | case4 b0 h h2 b1 r1 hcont ih =>
    intro hv
    rw [utf8Valid.eq_def] at hv
    simp only [if_neg h, h2, if_true, if_pos hcont] at hv
    rw [utf8DecodeLossy.eq_def]
    simp only [if_neg h, h2, if_true, if_pos hcont]
    exact List.mem_cons_of_mem _ (ih hv)
  | case5 b0 h h2 b1 r1 hcont ih =>
    intro _
    rw [utf8DecodeLossy.eq_def]
    simp [h, h2, hcont]
  | case6 b0 h h2 h3 =>
    intro _
    rw [utf8DecodeLossy.eq_def]
    simp [h, h2, h3]
  | case7 b0 h h2 h3 b1 hs _ =>
    intro _
    rw [utf8DecodeLossy.eq_def]
    simp [h, h2, h3, hs]
  | case8 b0 h h2 h3 b1 hs b2 r2 hcont _ ih =>
    intro hv
    rw [utf8Valid.eq_def] at hv
    simp only [if_neg h, h2, h3, Bool.false_eq_true, if_false, if_true, if_pos hs,
      if_pos hcont] at hv
    rw [utf8DecodeLossy.eq_def]
    simp only [if_neg h, h2, h3, Bool.false_eq_true, if_false, if_true, if_pos hs,
      if_pos hcont]
    exact List.mem_cons_of_mem _ (ih hv)
  | case9 b0 h h2 h3 b1 hs b2 r2 hcont _ ih =>
    intro _
    rw [utf8DecodeLossy.eq_def]
    simp [h, h2, h3, hs, hcont]
  | case10 b0 h h2 h3 b1 r1 hs ih =>
    intro _
    rw [utf8DecodeLossy.eq_def]
    simp [h, h2, h3, hs]
  | case11 b0 h h2 h3 h4 =>
    intro _
    rw [utf8DecodeLossy.eq_def]
    simp [h, h2, h3, h4]
  | case12 b0 h h2 h3 h4 b1 hs _ =>
    intro _
    rw [utf8DecodeLossy.eq_def]
    simp [h, h2, h3, h4, hs]
  | case13 b0 h h2 h3 h4 b1 hs b2 hcont _ _ _ =>
    intro _
    rw [utf8DecodeLossy.eq_def]
    simp [h, h2, h3, h4, hs, hcont]
  | case14 b0 h h2 h3 h4 b1 hs b2 hcont b3 r3 hcont3 _ _ _ ih =>
    intro hv
    rw [utf8Valid.eq_def] at hv
    simp only [if_neg h, h2, h3, h4, Bool.false_eq_true, if_false, if_true, if_pos hs,
      if_pos hcont, if_pos hcont3] at hv
    rw [utf8DecodeLossy.eq_def]
    simp only [if_neg h, h2, h3, h4, Bool.false_eq_true, if_false, if_true, if_pos hs,
      if_pos hcont, if_pos hcont3]
    exact List.mem_cons_of_mem _ (ih hv)
  | case15 b0 h h2 h3 h4 b1 hs b2 hcont b3 r3 hcont3 _ _ _ ih =>
    intro _
    rw [utf8DecodeLossy.eq_def]
    simp [h, h2, h3, h4, hs, hcont, hcont3]
  | case16 b0 h h2 h3 h4 b1 hs b2 r2 hcont _ ih =>
    intro _
    rw [utf8DecodeLossy.eq_def]
    simp [h, h2, h3, h4, hs, hcont]
  | case17 b0 h h2 h3 h4 b1 r1 hs ih =>
    intro _
    rw [utf8DecodeLossy.eq_def]
    simp [h, h2, h3, h4, hs]
  | case18 b0 rest h h2 h3 h4 ih =>
    intro _
    rw [utf8DecodeLossy.eq_def]
    simp [h, h2, h3, h4]

/-- Appending the encoding of one Unicode scalar value in front of a byte
string preserves UTF-8 validity. -/
theorem utf8Valid_encodeChar (c : Nat) (t : List Nat) (hlt : c < 1114112)
    (hsur : ¬(55296 ≤ c ∧ c ≤ 57343)) :
    utf8Valid (utf8EncodeChar c ++ t) = utf8Valid t := by
  rw [utf8EncodeChar]
  by_cases hc1 : c < 128
  · rw [if_pos hc1]
    rw [show ([c] ++ t : List Nat) = c :: t from rfl]
    rw [utf8Valid.eq_def]
    simp [hc1]
  · rw [if_neg hc1]
    by_cases hc2 : c < 2048
    · rw [if_pos hc2]
      rw [show ([192 + c / 64, 128 + c % 64] ++ t : List Nat) =
        (192 + c / 64) :: (128 + c % 64) :: t from rfl]
      rw [utf8Valid.eq_def]
      have hg1 : ¬ (192 + c / 64 < 128) := by omega
      have hg2 : (decide (194 ≤ 192 + c / 64) && decide (192 + c / 64 ≤ 223)) = true := by
        simp only [Bool.and_eq_true, decide_eq_true_eq]
        omega
      have hcb : contByte (128 + c % 64) = true := by
        simp only [contByte, Bool.and_eq_true, decide_eq_true_eq]
        omega
      simp only [if_neg hg1, hg2, if_true, if_pos hcb]
    · rw [if_neg hc2]
      by_cases hc3 : c < 65536
      · rw [if_pos hc3]
        rw [show ([224 + c / 4096, 128 + c / 64 % 64, 128 + c % 64] ++ t : List Nat) =
          (224 + c / 4096) :: (128 + c / 64 % 64) :: (128 + c % 64) :: t from rfl]
        rw [utf8Valid.eq_def]
        have hg1 : ¬ (224 + c / 4096 < 128) := by omega
        have hg2 : (decide (194 ≤ 224 + c / 4096) && decide (224 + c / 4096 ≤ 223)) =
            false := by
          simp only [Bool.and_eq_false_iff, decide_eq_false_iff_not]
          omega
        have hg3 : (decide (224 ≤ 224 + c / 4096) && decide (224 + c / 4096 ≤ 239)) =
            true := by
          simp only [Bool.and_eq_true, decide_eq_true_eq]
          omega
        have hsnd : sndOk (224 + c / 4096) (128 + c / 64 % 64) = true := by
          simp only [sndOk, sndLo, sndHi]
          split_ifs with e1 e2 e3 e4 <;>
            simp only [Bool.and_eq_true, decide_eq_true_eq] <;> omega
        have hcb : contByte (128 + c % 64) = true := by
          simp only [contByte, Bool.and_eq_true, decide_eq_true_eq]
          omega
        simp only [if_neg hg1, hg2, hg3, Bool.false_eq_true, if_false, if_true,
          if_pos hsnd, if_pos hcb]
      · rw [if_neg hc3]
        rw [show ([240 + c / 262144, 128 + c / 4096 % 64, 128 + c / 64 % 64,
            128 + c % 64] ++ t : List Nat) =
          (240 + c / 262144) :: (128 + c / 4096 % 64) :: (128 + c / 64 % 64) ::
            (128 + c % 64) :: t from rfl]
        rw [utf8Valid.eq_def]
        have hg1 : ¬ (240 + c / 262144 < 128) := by omega
        have hg2 : (decide (194 ≤ 240 + c / 262144) && decide (240 + c / 262144 ≤ 223)) =
            false := by
          simp only [Bool.and_eq_false_iff, decide_eq_false_iff_not]
          omega
        have hg3 : (decide (224 ≤ 240 + c / 262144) && decide (240 + c / 262144 ≤ 239)) =
            false := by
          simp only [Bool.and_eq_false_iff, decide_eq_false_iff_not]
          omega
        have hg4 : (decide (240 ≤ 240 + c / 262144) && decide (240 + c / 262144 ≤ 244)) =
            true := by
          simp only [Bool.and_eq_true, decide_eq_true_eq]
          omega
        have hsnd : sndOk (240 + c / 262144) (128 + c / 4096 % 64) = true := by
          simp only [sndOk, sndLo, sndHi]
          split_ifs with e1 e2 e3 e4 <;>
            simp only [Bool.and_eq_true, decide_eq_true_eq] <;> omega
        have hcb2 : contByte (128 + c / 64 % 64) = true := by
          simp only [contByte, Bool.and_eq_true, decide_eq_true_eq]
          omega
        have hcb3 : contByte (128 + c % 64) = true := by
          simp only [contByte, Bool.and_eq_true, decide_eq_true_eq]
          omega
        simp only [if_neg hg1, hg2, hg3, hg4, Bool.false_eq_true, if_false, if_true,
          if_pos hsnd, if_pos hcb2, if_pos hcb3]

/-- The byte string produced by encoding any sequence of Unicode scalar
values is well-formed UTF-8. -/
theorem utf8Encode_valid (cs : List Nat)
    (h : ∀ c ∈ cs, c < 1114112 ∧ ¬(55296 ≤ c ∧ c ≤ 57343)) :
    utf8Valid (utf8Encode cs) = true := by
  induction cs with
  | nil =>
    show utf8Valid [] = true
    rw [utf8Valid.eq_def]
  | cons c cs ih =>
    rw [utf8Encode_cons,
      utf8Valid_encodeChar c _ (h c (by simp)).1 (h c (by simp)).2]
    exact ih (fun x hx => h x (by simp [hx]))

/-- A byte string that is not valid UTF-8 cannot be reproduced by re-encoding
its lossy decoding: the rendered key text is not byte-faithful. -/
theorem utf8_invalid_ne (k : List Nat) (hv : utf8Valid k = false) :
    utf8Encode (utf8DecodeLossy k) ≠ k := by
  intro he
  have hval := utf8Encode_valid (utf8DecodeLossy k)
    (fun c hc => utf8DecodeLossy_scalars k c hc)
  rw [he, hv] at hval
  simp at hval

theorem charOfNat_toNat (c : Nat) (h1 : c < 1114112)
    (h2 : ¬(55296 ≤ c ∧ c ≤ 57343)) : (Char.ofNat c).toNat = c := by
  have hval : Nat.isValidChar c := by
    by_cases hc : c < 55296
    · exact Or.inl hc
    · exact Or.inr ⟨by omega, by omega⟩
  simp [Char.ofNat, hval]
  rfl

theorem map_toNat_ofNat (l : List Nat)
    (h : ∀ c ∈ l, c < 1114112 ∧ ¬(55296 ≤ c ∧ c ≤ 57343)) :
    (l.map Char.ofNat).map Char.toNat = l := by
  induction l with
  | nil => rfl
  | cons c cs ih =>
    simp only [List.map_cons, List.cons.injEq]
    exact ⟨charOfNat_toNat c (h c (by simp)).1 (h c (by simp)).2,
      ih (fun x hx => h x (by simp [hx]))⟩

/-- The scalar values of the characters of the rendered key text are exactly
the output of the lossy decoder. -/
theorem lossyString_data (k : List Nat) :
    (lossyString k).data.map Char.toNat = utf8DecodeLossy k := by
  show ((utf8DecodeLossy k).map Char.ofNat).map Char.toNat = utf8DecodeLossy k
  exact map_toNat_ofNat _ (utf8DecodeLossy_scalars k)

/-- C10: the report's key text comes from the lossy UTF-8 conversion
`String::from_utf8_lossy(station)`: every key whose bytes are well-formed
UTF-8 is rendered with exactly its own bytes, while a key whose bytes are
not valid UTF-8 is not byte-faithful — the rendered text contains the
replacement character U+FFFD (65533) and re-encoding it does not give the
key's bytes back; sorting, by contrast, is performed on the raw key bytes
(`entryLe` compares the unconverted byte lists). -/
theorem claim_C10 :
    (∀ k : List Nat, utf8Valid k = true →
      utf8Encode ((lossyString k).data.map Char.toNat) = k) ∧
    (∀ k : List Nat, utf8Valid k = false →
      Char.ofNat 65533 ∈ (lossyString k).data ∧
      utf8Encode ((lossyString k).data.map Char.toNat) ≠ k) ∧
    (∀ acc : AccList,
      List.Pairwise entryLe (sortAccum acc) ∧ List.Perm (sortAccum acc) acc) := by
  refine ⟨?_, ?_, ?_⟩
  · intro k hv
    rw [lossyString_data]
    exact utf8_roundtrip k hv
  · intro k hv
    constructor
    · have hm := utf8_invalid_fffd k hv
      show Char.ofNat 65533 ∈ (utf8DecodeLossy k).map Char.ofNat
      exact List.mem_map_of_mem Char.ofNat hm
    · rw [lossyString_data]
      exact utf8_invalid_ne k hv
  · intro acc
    exact ⟨sortAccum_sorted acc, sortAccum_perm acc⟩

theorem claim_C10_witness :
    utf8Valid [206, 151] = true ∧
    utf8Encode ((lossyString [206, 151]).data.map Char.toNat) = [206, 151] ∧
    utf8Valid [255] = false ∧
    Char.ofNat 65533 ∈ (lossyString [255]).data := by
  have h1 : utf8Valid [206, 151] = true := by
    simp [utf8Valid, contByte]
  have h2 : utf8Valid [255] = false := by
    simp [utf8Valid]
  exact ⟨h1, claim_C10.1 [206, 151] h1, h2, (claim_C10.2.1 [255] h2).1⟩

theorem claim_C7_witness :
    (0 < 4) ∧ (2 * |(6 : Int) - 4 * roundHalfEvenDiv 6 4| ≤ 4 ∧
      (2 * (6 : Int).emod 4 = 4 → roundHalfEvenDiv 6 4 % 2 = 0)) :=
  ⟨by decide, claim_C7.2.2.2.2.2.1 6 4 (by decide)⟩
